import Mathlib

/-!
# go-sync: a verification development

A shallow embedding of `sync.go` and `main.go` of `xnamic/go-sync`, and theorems
about it.

* Go strings are lists of characters; Go maps are association lists in which a
  key occurs once (`GoMap`); a Go `error` is an `Option Err`, `none` being `nil`.
  A map is ranged over in the order of its list: Go leaves the order open, and
  the theorems hold for every list.
* What `os.Stat`, `os.ReadDir`, `os.Lstat` and `os.Open` report under a path is a
  finite tree (`Node`); `scanDir` and `removeEmptyDir` are functions of the tree
  found at their root, `removeEmptyDir` also of the paths on which
  `os.RemoveAll` succeeds.
* `copyFile` and `deleteFile` run against an interface of the operating system
  calls they make (`OS`).
* The goroutines and channels of `dispatcher` and `process`, and the loop that
  reads the outcomes in `syncFolder`, are a transition system (`Pipeline`,
  `Action`, `step`); a run is a list of actions.
-/

namespace GoSync

/-! ## Strings, errors, maps -/

/-- A Go string. -/
abbrev Str := List Char

/-- The errors the program can tell apart: `os.ErrNotExist`, and any other. -/
inductive Err where
  | notExist
  | other
deriving DecidableEq, Repr

/-- The type `SyncFile`. -/
structure SyncFile where
  Source : Str
  Destination : Str
deriving DecidableEq, Repr

/-- The type `File`; `Size` is an `int64`, here an integer: sizes are only compared. -/
structure File where
  Path : Str
  Size : Int
deriving DecidableEq, Repr

/-- The type `Process func(f SyncFile) error`. -/
abbrev Process := SyncFile → Option Err

/-- A Go `map[string]V`: its entries, each key once. -/
abbrev GoMap (V : Type) := List (Str × V)

namespace GoMap

variable {V : Type}

/-- The keys of the map. -/
def keys (m : GoMap V) : List Str := m.map Prod.fst

/-- The lookup `v, exist := m[k]`. -/
def get? : GoMap V → Str → Option V
  | [], _ => none
  | (k', v) :: r, k => if k' = k then some v else get? r k

/-- The assignment `m[k] = v`. -/
def set : GoMap V → Str → V → GoMap V
  | [], k, v => [(k, v)]
  | (k', v') :: r, k, v => if k' = k then (k', v) :: r else (k', v') :: set r k v

/-- The statement `delete(m, k)`. -/
def delete (m : GoMap V) (k : Str) : GoMap V := m.filter (fun e => decide (e.1 ≠ k))

end GoMap

/-- The call `strings.Index(s, sub)`: the first position at which `sub` occurs in `s`;
`none` is Go's `-1`. -/
def Index : Str → Str → Option Nat
  | [], sub => if sub.isPrefixOf [] then some 0 else none
  | c :: t, sub => if sub.isPrefixOf (c :: t) then some 0 else (Index t sub).map (· + 1)

/-- The call `strings.Replace(s, old, new, 1)`: `s` with its first occurrence of `old`
replaced by `new`; `s` itself when `old == new` or `old` does not occur. -/
def Replace (s old new : Str) : Str :=
  if old = new then s else
  match Index s old with
  | none => s
  | some j => s.take j ++ new ++ s.drop (j + old.length)

/-! ## The directory tree seen by the scanner and by the walk -/

/-- What the operating system reports at a path. -/
inductive Node where
  /-- a regular file of the given size -/
  | file (size : Int)
  /-- a directory and its entries, in the order `os.ReadDir` lists them -/
  | dir (entries : List (Str × Node))
  /-- a directory that can be neither listed nor opened -/
  | lockedDir
  /-- nothing that can be reached: `os.Stat` and `os.Open` report `os.ErrNotExist` -/
  | noent
  /-- something for which `os.Stat`, `os.Lstat` and `os.Open` fail with another error -/
  | denied
deriving Repr

/-- The function `mergeMap(dst, src)`. -/
def mergeMap (dst src : GoMap File) : GoMap File :=
  src.foldl (fun m e => m.set e.1 e.2) dst

/-- The function `scanDir(dir)`, on the tree found at `dir`: the map it returns
(`[]` for `nil`) and its error. When `os.Stat(dir)` reports that `dir` does not
exist the error is returned; when `os.ReadDir(dir)` fails the empty map is
returned without an error. -/
def scanDir : Node → Str → GoMap File × Option Err
  | .noent, _ => ([], some .notExist)
  | .dir es, dir => scanEntries es dir []
  | .file _, _ => ([], none)
  | .lockedDir, _ => ([], none)
  | .denied, _ => ([], none)
where
  /-- The loop of `scanDir` over the entries not yet visited; `sFiles` is the map so
  far. An entry whose `os.Stat` fails ends the scan with the error; a directory
  is scanned, its error dropped and its files merged; a file is recorded. -/
  scanEntries : List (Str × Node) → Str → GoMap File → GoMap File × Option Err
  | [], _, sFiles => (sFiles, none)
  | (_, .noent) :: _, _, sFiles => (sFiles, some .notExist)
  | (_, .denied) :: _, _, sFiles => (sFiles, some .other)
  | (name, .file size) :: rest, dir, sFiles =>
    scanEntries rest dir (sFiles.set (dir ++ '/' :: name) { Path := name, Size := size })
  | (name, .dir es) :: rest, dir, sFiles =>
    scanEntries rest dir (mergeMap sFiles (scanDir (.dir es) (dir ++ '/' :: name)).1)
  | (name, .lockedDir) :: rest, dir, sFiles =>
    scanEntries rest dir (mergeMap sFiles (scanDir .lockedDir (dir ++ '/' :: name)).1)

/-! ## fileName -/

/-- One pass of the first loop of `fileName`, on the entry `e` of `fSources`:
the state is `f2copy` and the working copy of `fDestinatons`. -/
def fileNameStep (s d : Str) (acc : GoMap Str × GoMap File) (e : Str × File) :
    GoMap Str × GoMap File :=
  let dest := Replace e.1 s d
  match acc.2.get? dest with
  | none => (acc.1.set e.1 dest, acc.2)
  | some fd =>
    if e.2.Size ≠ fd.Size then (acc.1.set e.1 dest, acc.2)
    else (acc.1, acc.2.delete dest)

/-- The two loops of `fileName`, once both scans have succeeded: `f2copy` and `f2delete`. -/
def fileNameLoop (s d : Str) (fSources fDestinatons : GoMap File) : GoMap Str × GoMap Str :=
  let acc := fSources.foldl (fileNameStep s d) ([], fDestinatons)
  (acc.1, acc.2.foldl (fun m e => m.set e.1 []) [])

/-- The function `fileName(s, d)`, `src` and `dst` being the trees found at `s` and at `d`. -/
def fileName (s d : Str) (src dst : Node) : GoMap Str × GoMap Str × Option Err :=
  match scanDir src s, scanDir dst d with
  | (_, some errS), _ => ([], [], some errS)
  | (_, none), (_, some errC) => ([], [], some errC)
  | (fSources, none), (fDestinatons, none) =>
    let r := fileNameLoop s d fSources fDestinatons
    (r.1, r.2, none)

/-- A snapshot of the tree under `root`: each key occurs once and is `root`, a
slash, and the rest of the path. -/
def IsSnapshot (root : Str) (m : GoMap File) : Prop :=
  m.keys.Nodup ∧ ∀ k ∈ m.keys, ∃ rest, k = root ++ '/' :: rest

/-- The test of `fileName` on a source file `f` whose destination-equivalent
path is `dest`: nothing is at `dest` in the destination snapshot, or a file of
another size. -/
def NeedsCopy (D : GoMap File) (dest : Str) (f : File) : Prop :=
  D.get? dest = none ∨ ∃ fd, D.get? dest = some fd ∧ fd.Size ≠ f.Size

/-! ## The destination after the tasks -/

/-- A task of one of the two pipelines of `syncFolder`. -/
inductive Task where
  | copy (f : SyncFile)
  | delete (f : SyncFile)
deriving DecidableEq, Repr

/-- The tasks `dispatcher` makes of a work set. -/
def tasksOf (files : GoMap Str) : List SyncFile :=
  files.map (fun e => { Source := e.1, Destination := e.2 })

/-- The destination snapshot after one successful task: a copy sets the entry at
its destination to the size of the source file, a delete removes the entry. -/
def carryOut (S : GoMap File) (D : GoMap File) : Task → GoMap File
  | .copy f =>
    match S.get? f.Source with
    | some fi => D.set f.Destination fi
    | none => D
  | .delete f => D.delete f.Source

/-- What a successful task does to the entry at the path `k` of the destination
snapshot: `none` when it leaves the entry alone, else the entry afterwards. -/
def writeOf (S : GoMap File) (k : Str) : Task → Option (Option File)
  | .copy f =>
    if f.Destination = k then
      match S.get? f.Source with
      | some fi => some (some fi)
      | none => none
    else none
  | .delete f => if f.Source = k then some none else none

/-! ## copyFile and deleteFile -/

/-- The operating system calls made by `copyFile` and `deleteFile`, on a file
system state `σ`. -/
structure OS (σ : Type) where
  /-- the error of `os.Open(name)` -/
  Open : σ → Str → Option Err
  /-- the error of `os.Stat(name)` -/
  Stat : σ → Str → Option Err
  /-- the function `filepath.Dir(path)` -/
  Dir : Str → Str
  /-- the call `os.MkdirAll(path, os.ModePerm)` -/
  MkdirAll : σ → Str → σ × Option Err
  /-- the call `os.Create(name)` -/
  Create : σ → Str → σ × Option Err
  /-- the call `io.CopyBuffer(dst, src, buf)` between the two open files -/
  CopyBuffer : σ → Str → Str → σ × Option Err
  /-- the call `os.Remove(name)` -/
  Remove : σ → Str → σ × Option Err

/-- The function `copyFile(f)`: the file system afterwards and the error returned. -/
def copyFile {σ : Type} (os : OS σ) (st : σ) (f : SyncFile) : σ × Option Err :=
  match os.Open st f.Source with
  | some err => (st, some err)
  | none =>
    if os.Stat st f.Source = some .notExist then (st, none)
    else
      let dirName := os.Dir f.Destination
      let made := if os.Stat st dirName = some .notExist then os.MkdirAll st dirName
                  else (st, none)
      match made with
      | (st1, some err) => (st1, some err)
      | (st1, none) =>
        match os.Create st1 f.Destination with
        | (st2, some err) => (st2, some err)
        | (st2, none) =>
          match os.CopyBuffer st2 f.Destination f.Source with
          | (st3, some err) => (st3, some err)
          | (st3, none) => (st3, none)

/-- The function `deleteFile(f)`. -/
def deleteFile {σ : Type} (os : OS σ) (st : σ) (f : SyncFile) : σ × Option Err :=
  os.Remove st f.Source

/-! ## dispatcher, process and the loop over the outcomes -/

/-- A worker goroutine of `process`. -/
inductive Worker where
  /-- waiting in `range chanIn` -/
  | idle
  /-- has received `f`, about to call `p(f)` -/
  | holding (f : SyncFile)
  /-- has `err` from `p`, about to send it on `chanOut` -/
  | done (err : Option Err)
  /-- has seen `chanIn` closed and called `wg.Done()` -/
  | exited
deriving DecidableEq, Repr

/-- The state of one pipeline of `syncFolder`: `dispatcher(files)`,
`process(chFiles, p, nWorkers)` and the loop over the outcomes. -/
structure Pipeline where
  /-- the entries the loop of `dispatcher` has not sent yet -/
  pending : List SyncFile
  /-- the tasks `dispatcher` has sent, in order -/
  sent : List SyncFile
  /-- whether `dispatcher` has closed its channel -/
  inClosed : Bool
  /-- the workers started so far -/
  workers : List Worker
  /-- the counter of the `WaitGroup` of `process` -/
  wg : Nat
  /-- the content of the buffered channel `chanOut` of `process` -/
  chanOut : List (Option Err)
  /-- whether `chanOut` has been closed -/
  outClosed : Bool
  /-- the outcomes the loop in `syncFolder` has received, in order -/
  received : List (Option Err)
  /-- the counter `counterDelete` or `counterCopy` -/
  counter : Nat
  /-- the loop in `syncFolder` has ended -/
  finished : Bool
deriving DecidableEq, Repr

/-- The steps the goroutines of a pipeline can take. -/
inductive Action where
  /-- the launching goroutine of `process` starts the next worker -/
  | spawn
  /-- the send of `dispatcher` meets the receive of worker `i` (the channel is unbuffered) -/
  | send (i : Nat)
  /-- the loop of `dispatcher` is over: `close(chanOut)` -/
  | closeFiles
  /-- worker `i` calls `p(file)` -/
  | run (i : Nat)
  /-- worker `i` sends its outcome on `chanOut`, which has room -/
  | emit (i : Nat)
  /-- worker `i` finds `chanIn` closed and calls `wg.Done()` -/
  | quit (i : Nat)
  /-- the call `wg.Wait()` returns and `chanOut` is closed -/
  | closeOut
  /-- the loop in `syncFolder` receives an outcome and counts it when it is `nil` -/
  | recv
  /-- the loop in `syncFolder` finds `chanOut` closed and empty -/
  | finish
deriving DecidableEq, Repr

/-- The pipeline before any goroutine has run: `wg.Add(nWorkers)` is done. -/
def Pipeline.init (files : GoMap Str) (nWorkers : Nat) : Pipeline where
  pending := tasksOf files
  sent := []
  inClosed := false
  workers := []
  wg := nWorkers
  chanOut := []
  outClosed := false
  received := []
  counter := 0
  finished := false

/-- One step of a pipeline; `none` when the action cannot happen in this state. -/
def step (p : Process) (nWorkers : Nat) (st : Pipeline) : Action → Option Pipeline
  | .spawn =>
    if st.workers.length < nWorkers then some { st with workers := st.workers ++ [.idle] }
    else none
  | .send i =>
    match st.pending, st.workers[i]? with
    | f :: rest, some .idle =>
      some { st with pending := rest, sent := st.sent ++ [f],
                     workers := st.workers.set i (.holding f) }
    | _, _ => none
  | .closeFiles =>
    if st.pending = [] ∧ st.inClosed = false then some { st with inClosed := true } else none
  | .run i =>
    match st.workers[i]? with
    | some (.holding f) => some { st with workers := st.workers.set i (.done (p f)) }
    | _ => none
  | .emit i =>
    match st.workers[i]? with
    | some (.done err) =>
      if st.chanOut.length < nWorkers then
        some { st with chanOut := st.chanOut ++ [err], workers := st.workers.set i .idle }
      else none
    | _ => none
  | .quit i =>
    match st.workers[i]? with
    | some .idle =>
      if st.inClosed = true then
        some { st with workers := st.workers.set i .exited, wg := st.wg - 1 }
      else none
    | _ => none
  | .closeOut =>
    if st.wg = 0 ∧ st.outClosed = false then some { st with outClosed := true } else none
  | .recv =>
    match st.chanOut with
    | err :: rest =>
      if st.finished = false then
        some { st with chanOut := rest, received := st.received ++ [err],
                       counter := if err = none then st.counter + 1 else st.counter }
      else none
    | [] => none
  | .finish =>
    if st.chanOut = [] ∧ st.outClosed = true ∧ st.finished = false then
      some { st with finished := true }
    else none

/-- A run: the actions are taken in turn; `none` when one of them cannot happen. -/
def exec (p : Process) (nWorkers : Nat) : Pipeline → List Action → Option Pipeline
  | st, [] => some st
  | st, a :: as =>
    match step p nWorkers st a with
    | some st' => exec p nWorkers st' as
    | none => none

/-- The outcomes a worker holds or is about to produce. -/
def Worker.out (p : Process) : Worker → List (Option Err)
  | .holding f => [p f]
  | .done err => [err]
  | _ => []

/-- A run of one pipeline from start to end: a worker starts, carries every task
through, and the channels are closed. -/
def fullRun (files : GoMap Str) (nWorkers : Nat) : List Action :=
  List.replicate nWorkers Action.spawn
    ++ (tasksOf files).flatMap (fun _ => [Action.send 0, Action.run 0, Action.emit 0, Action.recv])
    ++ [Action.closeFiles]
    ++ (List.range nWorkers).map Action.quit
    ++ [Action.closeOut, Action.finish]

/-- The number of workers that have called `wg.Done()`. -/
def exitedCount (ws : List Worker) : Nat := ws.count .exited

/-- The outcomes the workers hold or are about to produce. -/
def inflight (p : Process) (ws : List Worker) : List (Option Err) := ws.flatMap (Worker.out p)

/-- What holds of every state a pipeline over the tasks `tasks` can reach. -/
structure Inv (p : Process) (n : Nat) (tasks : List SyncFile) (st : Pipeline) : Prop where
  /-- the tasks sent and the entries still to send are the work set, in order -/
  sent_pending : st.sent ++ st.pending = tasks
  /-- the channel of `dispatcher` is closed after its last send -/
  closed_pending : st.inClosed = true → st.pending = []
  /-- every task sent is held by a worker or has its outcome in `chanOut` or received -/
  outcomes : (st.received : Multiset (Option Err)) + st.chanOut + inflight p st.workers
    = (st.sent.map p : List (Option Err))
  /-- the `WaitGroup` counts the workers that have not exited, started or not -/
  wg_exited : st.wg + exitedCount st.workers = n
  /-- no more than `nWorkers` workers are started -/
  length_le : st.workers.length ≤ n
  /-- a worker exits only once `dispatcher` has closed its channel -/
  exited_closed : exitedCount st.workers ≠ 0 → st.inClosed = true
  /-- the channel `chanOut` is closed only once every worker has exited -/
  out_wg : st.outClosed = true → st.wg = 0
  /-- the loop over the outcomes ends only on a closed and empty `chanOut` -/
  finished_out : st.finished = true → st.chanOut = [] ∧ st.outClosed = true
  /-- the counter counts the `nil` outcomes received -/
  counter_eq : st.counter = st.received.countP Option.isNone

/-- The steps a worker still has to take before it has exited, a send on
`chanOut` counting twice (the outcome is received as well). -/
def Worker.weight : Worker → Nat
  | .exited => 0
  | .idle => 1
  | .done _ => 3
  | .holding _ => 4

/-- The sum of the weights of the workers. -/
def load (ws : List Worker) : Nat := (ws.map Worker.weight).sum

/-- A bound on the number of steps a pipeline can still take. -/
def stepsLeft (n : Nat) (st : Pipeline) : Nat :=
  2 * (n - st.workers.length) + 4 * st.pending.length + load st.workers + st.chanOut.length
    + (if st.inClosed = true then 0 else 1) + (if st.outClosed = true then 0 else 1)
    + (if st.finished = true then 0 else 1)

/-! ## syncFolder -/

/-- What one call of `syncFolder` meets outside the program. -/
structure World where
  /-- the function `filepath.Clean` -/
  Clean : Str → Str
  /-- the tree `scanDir` finds at the source root -/
  src : Node
  /-- the tree `scanDir` finds at the destination root, after `os.MkdirAll` -/
  dst : Node
  /-- the error `copyFile` returns for each task -/
  copyFile : Process
  /-- the error `deleteFile` returns for each task -/
  deleteFile : Process

/-- The function `syncFolder(s, d, nWorkers)`: its result after the delete
pipeline has run as `runDelete` and the copy pipeline as `runCopy`; `none` when a
run is not one of the pipeline or does not reach the end of its loop. The errors
of `os.MkdirAll` and of `fileName` are only logged, and `removeEmptyDir(d)`, run
before the result is computed, does not enter it. -/
def syncFolder (w : World) (s d : Str) (nWorkers : Nat) (runDelete runCopy : List Action) :
    Option Bool :=
  let source := w.Clean s
  let destination := w.Clean d
  let r := fileName source destination w.src w.dst
  let f2copy := r.1
  let f2delete := r.2.1
  match exec w.deleteFile nWorkers (Pipeline.init f2delete nWorkers) runDelete,
        exec w.copyFile nWorkers (Pipeline.init f2copy nWorkers) runCopy with
  | some pd, some pc =>
    if pd.finished = true ∧ pc.finished = true then
      some (decide (f2copy.length + f2delete.length = pc.counter + pd.counter))
    else none
  | _, _ => none

/-! ## removeEmptyDir -/

/-- The function `IsEmptyDir(name, fi)`, on what is found at `name`. -/
def IsEmptyDir : Node → Bool × Option Err
  | .file _ => (false, none)
  | .dir [] => (true, none)
  | .dir (_ :: _) => (false, none)
  | .lockedDir => (false, some .other)
  | .noent => (false, some .notExist)
  | .denied => (false, some .other)

/-- The callback `removeEmptyDir` passes to `filepath.Walk`, on what is found at
a path and the error the walk reports for it: whether the path is gone
afterwards, and the error the callback returns. On a directory that
`IsEmptyDir` finds empty it calls `os.RemoveAll` and drops its error:
`removable` says whether that call succeeds. -/
def walkFn (n : Node) (err : Option Err) (removable : Bool) : Bool × Option Err :=
  match err with
  | some e => (false, some e)
  | none =>
    match IsEmptyDir n with
    | (_, some e) => (false, some e)
    | (true, none) => (removable, none)
    | (false, none) => (false, none)

/-- The walk of `removeEmptyDir` below one path (`filepath.Walk` with the
callback `walkFn`): what is left at the path (`none` when it was removed) and
the error that stopped the walk. The path is the list of the names that lead to
it from the root, and `removes` says on which paths `os.RemoveAll` succeeds. A
file is passed to the callback; the names of a directory are read, the
directory is passed to the callback, and then its names are walked in turn;
what cannot be listed or opened is passed to the callback, which returns the
error. -/
def walk (removes : List Str → Bool) : Node → List Str → Option Node × Option Err
  | .file size, path => (some (.file size), (walkFn (.file size) none (removes path)).2)
  | .dir es, path =>
    match walkFn (.dir es) none (removes path) with
    | (_, some err) => (some (.dir es), some err)
    | (true, none) => (none, none)
    | (false, none) =>
      (some (.dir (walkNames removes es path).1), (walkNames removes es path).2)
  | .lockedDir, path =>
    (some .lockedDir, (walkFn .lockedDir (some .other) (removes path)).2)
  | .noent, path => (some .noent, (walkFn .noent none (removes path)).2)
  | .denied, path => (some .denied, (walkFn .denied none (removes path)).2)
where
  /-- The loop of the walk over the names of the directory at `path`: it stops at
  the first error. -/
  walkNames (removes : List Str → Bool) :
      List (Str × Node) → List Str → List (Str × Node) × Option Err
  | [], _ => ([], none)
  | (name, c) :: rest, path =>
    match walk removes c (path ++ [name]) with
    | (some c', some err) => ((name, c') :: rest, some err)
    | (none, some err) => (rest, some err)
    | (some c', none) =>
      ((name, c') :: (walkNames removes rest path).1, (walkNames removes rest path).2)
    | (none, none) => ((walkNames removes rest path).1, (walkNames removes rest path).2)

/-- The function `removeEmptyDir(dir)`, on the tree found at `dir`; `removes`
says on which paths below `dir` the call `os.RemoveAll` succeeds. -/
def removeEmptyDir (removes : List Str → Bool) (root : Node) : Option Node × Option Err :=
  walk removes root []

/-- Following the names `path` down from the node leads to a directory with the
entries `es`. -/
inductive DirAt : Node → List Str → List (Str × Node) → Prop where
  | here (es : List (Str × Node)) : DirAt (.dir es) [] es
  | down {name : Str} {c : Node} {es : List (Str × Node)} {path : List Str}
      {es' : List (Str × Node)} :
      (name, c) ∈ es → DirAt c path es' → DirAt (.dir es) (name :: path) es'

/-- The names in every directory of the tree are distinct. -/
inductive DistinctNames : Node → Prop where
  | file (size : Int) : DistinctNames (.file size)
  | lockedDir : DistinctNames .lockedDir
  | noent : DistinctNames .noent
  | denied : DistinctNames .denied
  | dir (es : List (Str × Node)) :
      (es.map Prod.fst).Nodup → (∀ e ∈ es, DistinctNames e.2) → DistinctNames (.dir es)

/-! ## Example trees -/

/-- A source tree holding one file `a` of 4 bytes. -/
def srcFour : Node := .dir [("a".toList, .file 4)]

/-- A destination tree holding one file `a` of 7 bytes. -/
def dstSeven : Node := .dir [("a".toList, .file 7)]

/-- A source tree: `a` of 4 bytes, an empty file `b`, and `c` of 1 byte in the directory `sub`. -/
def srcThree : Node :=
  .dir [("a".toList, .file 4), ("b".toList, .file 0), ("sub".toList, .dir [("c".toList, .file 1)])]

/-- A destination tree: `a` of 7 bytes, an empty file `b`, and a file `old` of 2 bytes. -/
def dstThree : Node :=
  .dir [("a".toList, .file 7), ("b".toList, .file 0), ("old".toList, .file 2)]

/-- A tree whose root holds one directory `a`, which is empty. -/
def nestedEmpty : Node := .dir [("a".toList, .dir [])]

/-- A tree whose root lists `a`, which cannot be opened, and then an empty directory `e`. -/
def brokenThenEmpty : Node := .dir [("a".toList, .noent), ("e".toList, .dir [])]

/-- A tree with an empty directory `a` and a directory `b` that holds a file `f`. -/
def emptyAndFull : Node := .dir [("a".toList, .dir []), ("b".toList, .dir [("f".toList, .file 1)])]

/-- An operation that returns `nil` on the task `TestDispatcher` expects and an
error on any other task. -/
def testOp : Process := fun f =>
  if f.Source = "/tmp/testdir/file1.txt".toList
      ∧ f.Destination = "/tmp/testdirsync/file1.txt".toList then none
  else some .other

/-- A destination tree in which no file differs in size from its source file in
`srcThree`: an empty file `b` and a file `old` of 2 bytes. -/
def dstTwo : Node := .dir [("b".toList, .file 0), ("old".toList, .file 2)]

/-- The work set of `TestDispatcher`. -/
def testFiles : GoMap Str :=
  [("/tmp/testdir/file1.txt".toList, "/tmp/testdirsync/file1.txt".toList)]

/-- A call of `syncFolder` whose source root does not exist; the destination is
an empty directory, and no task would fail. -/
def noSourceWorld : World where
  Clean := fun x => x
  src := .noent
  dst := .dir []
  copyFile := fun _ => none
  deleteFile := fun _ => none

/-- A call of `syncFolder` on `srcThree` and `dstThree` in which the copy to
`d/a` fails and every other task succeeds. -/
def oneFailureWorld : World where
  Clean := fun x => x
  src := srcThree
  dst := dstThree
  copyFile := fun f => if f.Destination = "d/a".toList then some .other else none
  deleteFile := fun _ => none

/-! ## Maps -/

theorem GoMap.keys_cons {V : Type} (a : Str) (b : V) (r : GoMap V) :
    GoMap.keys ((a, b) :: r) = a :: GoMap.keys r := rfl

theorem GoMap.get?_cons {V : Type} (a : Str) (b : V) (r : GoMap V) (k : Str) :
    GoMap.get? ((a, b) :: r) k = if a = k then some b else GoMap.get? r k := rfl

theorem GoMap.set_cons {V : Type} (a : Str) (b : V) (r : GoMap V) (k : Str) (v : V) :
    GoMap.set ((a, b) :: r) k v = if a = k then (a, v) :: r else (a, b) :: GoMap.set r k v := rfl

theorem GoMap.delete_cons {V : Type} (a : Str) (b : V) (r : GoMap V) (k : Str) :
    GoMap.delete ((a, b) :: r) k = if a = k then GoMap.delete r k else (a, b) :: GoMap.delete r k := by
  unfold GoMap.delete
  by_cases h : a = k
  · rw [if_pos h, List.filter_cons_of_neg]
    simp only [ne_eq, decide_not, Bool.not_eq_true', decide_eq_false_iff_not, not_not]
    simpa using h
  · rw [if_neg h, List.filter_cons_of_pos]
    simpa using h

theorem GoMap.get?_set {V : Type} (m : GoMap V) (k k' : Str) (v : V) :
    (m.set k v).get? k' = if k = k' then some v else m.get? k' := by
  induction m with
  | nil => rfl
  | cons e r ih =>
    obtain ⟨a, b⟩ := e
    rw [GoMap.set_cons]
    by_cases h : a = k
    · subst h
      rw [if_pos rfl, GoMap.get?_cons, GoMap.get?_cons]
      by_cases h' : a = k'
      · rw [if_pos h', if_pos h']
      · rw [if_neg h', if_neg h', if_neg h']
    · rw [if_neg h, GoMap.get?_cons, GoMap.get?_cons, ih]
      by_cases h' : a = k'
      · subst h'
        have hk : ¬ k = a := fun e => h e.symm
        rw [if_pos rfl, if_pos rfl, if_neg hk]
      · rw [if_neg h', if_neg h']

theorem GoMap.mem_keys_set {V : Type} (m : GoMap V) (k k' : Str) (v : V) :
    k' ∈ (m.set k v).keys ↔ k' = k ∨ k' ∈ m.keys := by
  induction m with
  | nil =>
    show k' ∈ [k] ↔ k' = k ∨ k' ∈ []
    simp only [List.mem_singleton, List.not_mem_nil, or_false]
  | cons e r ih =>
    obtain ⟨a, b⟩ := e
    rw [GoMap.set_cons]
    by_cases h : a = k
    · subst h
      rw [if_pos rfl, GoMap.keys_cons, GoMap.keys_cons]
      simp only [List.mem_cons]
      tauto
    · rw [if_neg h, GoMap.keys_cons, GoMap.keys_cons]
      simp only [List.mem_cons, ih]
      tauto

theorem GoMap.nodup_keys_set {V : Type} (m : GoMap V) (k : Str) (v : V)
    (h : m.keys.Nodup) : (m.set k v).keys.Nodup := by
  induction m with
  | nil =>
    show [k].Nodup
    exact List.nodup_singleton k
  | cons e r ih =>
    obtain ⟨a, b⟩ := e
    rw [GoMap.keys_cons] at h
    have hr : (GoMap.keys r).Nodup := (List.nodup_cons.mp h).2
    have ha : a ∉ GoMap.keys r := (List.nodup_cons.mp h).1
    rw [GoMap.set_cons]
    by_cases hk : a = k
    · rw [if_pos hk, GoMap.keys_cons]
      exact h
    · have hmem : a ∉ GoMap.keys (GoMap.set r k v) := by
        rw [GoMap.mem_keys_set]
        rintro (h1 | h1)
        · exact hk h1
        · exact ha h1
      rw [if_neg hk, GoMap.keys_cons]
      exact List.nodup_cons.mpr ⟨hmem, ih hr⟩

theorem GoMap.get?_delete {V : Type} (m : GoMap V) (k k' : Str) :
    (m.delete k).get? k' = if k = k' then none else m.get? k' := by
  induction m with
  | nil =>
    show (none : Option V) = if k = k' then none else none
    rw [ite_self]
  | cons e r ih =>
    obtain ⟨a, b⟩ := e
    rw [GoMap.delete_cons]
    by_cases h : a = k
    · subst h
      rw [if_pos rfl, ih, GoMap.get?_cons]
      by_cases h' : a = k'
      · simp only [h', if_true]
      · simp only [h', if_false]
    · rw [if_neg h, GoMap.get?_cons, GoMap.get?_cons, ih]
      by_cases h' : a = k'
      · subst h'
        have hk : ¬ k = a := fun e => h e.symm
        simp only [hk, if_true, if_false]
      · simp only [h', if_false]

theorem GoMap.mem_keys_delete {V : Type} (m : GoMap V) (k k' : Str) :
    k' ∈ (m.delete k).keys ↔ k' ≠ k ∧ k' ∈ m.keys := by
  induction m with
  | nil =>
    show k' ∈ [] ↔ k' ≠ k ∧ k' ∈ []
    simp only [List.not_mem_nil, and_false]
  | cons e r ih =>
    obtain ⟨a, b⟩ := e
    rw [GoMap.delete_cons]
    by_cases h : a = k
    · subst h
      rw [if_pos rfl, ih, GoMap.keys_cons]
      simp only [List.mem_cons]
      tauto
    · rw [if_neg h, GoMap.keys_cons, GoMap.keys_cons]
      simp only [List.mem_cons, ih]
      constructor
      · rintro (h1 | h1)
        · subst h1
          exact ⟨h, Or.inl rfl⟩
        · exact ⟨h1.1, Or.inr h1.2⟩
      · rintro ⟨h1, h2 | h2⟩
        · exact Or.inl h2
        · exact Or.inr ⟨h1, h2⟩

theorem GoMap.get?_eq_none_iff {V : Type} (m : GoMap V) (k : Str) :
    m.get? k = none ↔ k ∉ m.keys := by
  induction m with
  | nil =>
    show (none : Option V) = none ↔ k ∉ []
    simp only [List.not_mem_nil, not_false_eq_true]
  | cons e r ih =>
    obtain ⟨a, b⟩ := e
    rw [GoMap.get?_cons, GoMap.keys_cons]
    by_cases h : a = k
    · subst h
      rw [if_pos rfl]
      simp only [List.mem_cons, true_or, not_true_eq_false, reduceCtorEq]
    · have hk : ¬ k = a := fun e => h e.symm
      rw [if_neg h, ih]
      simp only [List.mem_cons, hk, false_or]

theorem GoMap.mem_keys_of_get? {V : Type} (m : GoMap V) (k : Str) (v : V)
    (h : m.get? k = some v) : k ∈ m.keys := by
  by_contra hk
  rw [← GoMap.get?_eq_none_iff] at hk
  rw [hk] at h
  exact Option.noConfusion h

/-! ## strings.Replace on a path under the root -/

theorem Index_append (s t : Str) : Index (s ++ t) s = some 0 := by
  have hp : s.isPrefixOf (s ++ t) = true := by
    rw [List.isPrefixOf_iff_prefix]
    exact List.prefix_append s t
  cases hst : s ++ t with
  | nil =>
    rw [hst] at hp
    simp [Index, hp]
  | cons c r =>
    rw [hst] at hp
    simp [Index, hp]

theorem Replace_append (s d t : Str) : Replace (s ++ t) s d = d ++ t := by
  unfold Replace
  by_cases h : s = d
  · simp [h]
  · simp [h, Index_append]

theorem Replace_injOn (s d : Str) (p q : Str) (hp : ∃ rest, p = s ++ '/' :: rest)
    (hq : ∃ rest, q = s ++ '/' :: rest) (h : Replace p s d = Replace q s d) : p = q := by
  obtain ⟨rp, rfl⟩ := hp
  obtain ⟨rq, rfl⟩ := hq
  rw [Replace_append, Replace_append] at h
  have := List.append_cancel_left h
  rw [this]

/-! ## scanDir returns a snapshot of its root -/

theorem mergeMap_nodup (dst src : GoMap File) (h : dst.keys.Nodup) :
    (mergeMap dst src).keys.Nodup := by
  unfold mergeMap
  induction src generalizing dst with
  | nil => exact h
  | cons e r ih => exact ih _ (GoMap.nodup_keys_set dst e.1 e.2 h)

theorem mem_keys_mergeMap (dst src : GoMap File) (k : Str)
    (h : k ∈ (mergeMap dst src).keys) : k ∈ dst.keys ∨ k ∈ src.keys := by
  unfold mergeMap at h
  induction src generalizing dst with
  | nil => exact Or.inl h
  | cons e r ih =>
    obtain ⟨a, b⟩ := e
    rcases ih _ h with h1 | h1
    · rw [GoMap.mem_keys_set] at h1
      rcases h1 with h2 | h2
      · right
        rw [GoMap.keys_cons, h2]
        exact List.mem_cons_self _ _
      · exact Or.inl h2
    · right
      rw [GoMap.keys_cons]
      exact List.mem_cons_of_mem _ h1

theorem isSnapshot_nil (root : Str) : IsSnapshot root [] :=
  ⟨List.nodup_nil, fun _ hk => absurd hk (List.not_mem_nil _)⟩

theorem isSnapshot_set (root : Str) (m : GoMap File) (name : Str) (f : File)
    (h : IsSnapshot root m) : IsSnapshot root (m.set (root ++ '/' :: name) f) := by
  refine ⟨GoMap.nodup_keys_set m _ f h.1, ?_⟩
  intro k hk
  rw [GoMap.mem_keys_set] at hk
  rcases hk with h1 | h1
  · exact ⟨name, h1⟩
  · exact h.2 k h1

theorem isSnapshot_mergeMap (root name : Str) (m sub : GoMap File)
    (h : IsSnapshot root m) (hs : IsSnapshot (root ++ '/' :: name) sub) :
    IsSnapshot root (mergeMap m sub) := by
  refine ⟨mergeMap_nodup m sub h.1, ?_⟩
  intro k hk
  rcases mem_keys_mergeMap m sub k hk with h1 | h1
  · exact h.2 k h1
  · obtain ⟨rest, hr⟩ := hs.2 k h1
    refine ⟨name ++ '/' :: rest, ?_⟩
    rw [hr]
    simp only [List.append_assoc, List.cons_append]

mutual

theorem scanDir_isSnapshot : (t : Node) → (dir : Str) → IsSnapshot dir (scanDir t dir).1
  | .noent, dir => isSnapshot_nil dir
  | .file _, dir => isSnapshot_nil dir
  | .lockedDir, dir => isSnapshot_nil dir
  | .denied, dir => isSnapshot_nil dir
  | .dir es, dir => by
    rw [scanDir]
    exact scanEntries_isSnapshot es dir [] (isSnapshot_nil dir)

theorem scanEntries_isSnapshot : (es : List (Str × Node)) → (dir : Str) → (sFiles : GoMap File) →
    IsSnapshot dir sFiles → IsSnapshot dir (scanDir.scanEntries es dir sFiles).1
  | [], dir, sFiles, h => by
    rw [scanDir.scanEntries]
    exact h
  | (name, .noent) :: rest, dir, sFiles, h => by
    rw [scanDir.scanEntries]
    exact h
  | (name, .denied) :: rest, dir, sFiles, h => by
    rw [scanDir.scanEntries]
    exact h
  | (name, .file size) :: rest, dir, sFiles, h => by
    rw [scanDir.scanEntries]
    exact scanEntries_isSnapshot rest dir _ (isSnapshot_set dir sFiles name _ h)
  | (name, .dir es) :: rest, dir, sFiles, h => by
    rw [scanDir.scanEntries]
    exact scanEntries_isSnapshot rest dir _
      (isSnapshot_mergeMap dir name sFiles _ h (scanDir_isSnapshot (.dir es) (dir ++ '/' :: name)))
  | (name, .lockedDir) :: rest, dir, sFiles, h => by
    rw [scanDir.scanEntries]
    exact scanEntries_isSnapshot rest dir _
      (isSnapshot_mergeMap dir name sFiles _ h (scanDir_isSnapshot .lockedDir (dir ++ '/' :: name)))

end

/-! ## The first loop of fileName -/

theorem fileNameStep_fst_get? (s d : Str) (cp : GoMap Str) (W : GoMap File) (a : Str) (fa : File)
    (p : Str) (h : a ≠ p) :
    (fileNameStep s d (cp, W) (a, fa)).1.get? p = cp.get? p := by
  unfold fileNameStep
  dsimp only
  split
  · rw [GoMap.get?_set, if_neg h]
  · split
    · rw [GoMap.get?_set, if_neg h]
    · rfl

theorem fileNameStep_snd_get? (s d : Str) (cp : GoMap Str) (W : GoMap File) (a : Str) (fa : File)
    (k : Str) (h : Replace a s d ≠ k) :
    (fileNameStep s d (cp, W) (a, fa)).2.get? k = W.get? k := by
  unfold fileNameStep
  dsimp only
  split
  · rfl
  · split
    · rfl
    · rw [GoMap.get?_delete, if_neg h]

theorem fileNameStep_self (s d : Str) (cp : GoMap Str) (W : GoMap File) (a : Str) (fa : File)
    (v : Str) (hcp : cp.get? a = none) :
    (fileNameStep s d (cp, W) (a, fa)).1.get? a = some v
      ↔ v = Replace a s d ∧ NeedsCopy W (Replace a s d) fa := by
  unfold fileNameStep NeedsCopy
  dsimp only
  split
  · rename_i h
    rw [GoMap.get?_set, if_pos rfl]
    constructor
    · intro hv
      exact ⟨(Option.some.inj hv).symm, Or.inl h⟩
    · rintro ⟨hv, _⟩
      rw [hv]
  · rename_i fd h
    split
    · rename_i hne
      rw [GoMap.get?_set, if_pos rfl]
      constructor
      · intro hv
        exact ⟨(Option.some.inj hv).symm, Or.inr ⟨fd, h, fun e => hne e.symm⟩⟩
      · rintro ⟨hv, _⟩
        rw [hv]
    · rename_i heq
      rw [hcp]
      constructor
      · intro hv
        exact Option.noConfusion hv
      · rintro ⟨_, h1 | ⟨fd', h1, h2⟩⟩
        · rw [h1] at h
          exact Option.noConfusion h
        · rw [h1] at h
          have : fd' = fd := Option.some.inj h
          subst this
          exact absurd (not_not.mp heq).symm h2

theorem foldl_fileNameStep_copy (s d : Str) (L : GoMap File) :
    ∀ (cp : GoMap Str) (W : GoMap File), IsSnapshot s L → (∀ k ∈ L.keys, cp.get? k = none) →
      ∀ p v, (L.foldl (fileNameStep s d) (cp, W)).1.get? p = some v
        ↔ cp.get? p = some v
          ∨ ∃ f, L.get? p = some f ∧ v = Replace p s d ∧ NeedsCopy W (Replace p s d) f := by
  induction L with
  | nil =>
    intro cp W _ _ p v
    show cp.get? p = some v ↔ _
    constructor
    · exact Or.inl
    · rintro (h | ⟨f, h, _⟩)
      · exact h
      · exact Option.noConfusion h
  | cons e r ih =>
    obtain ⟨a, fa⟩ := e
    intro cp W hL hcp p v
    have hnd : (a :: GoMap.keys r).Nodup := hL.1
    have har : a ∉ GoMap.keys r := (List.nodup_cons.mp hnd).1
    have hr : IsSnapshot s r :=
      ⟨(List.nodup_cons.mp hnd).2, fun k hk => hL.2 k (List.mem_cons_of_mem _ hk)⟩
    have ha : ∃ rest, a = s ++ '/' :: rest := hL.2 a (List.mem_cons_self _ _)
    have hcpa : cp.get? a = none := hcp a (List.mem_cons_self _ _)
    have hcp' : ∀ k ∈ GoMap.keys r, (fileNameStep s d (cp, W) (a, fa)).1.get? k = none := by
      intro k hk
      have hak : a ≠ k := fun e => har (e ▸ hk)
      rw [fileNameStep_fst_get? s d cp W a fa k hak]
      exact hcp k (List.mem_cons_of_mem _ hk)
    rw [List.foldl_cons]
    have step := ih (fileNameStep s d (cp, W) (a, fa)).1 (fileNameStep s d (cp, W) (a, fa)).2
      hr hcp' p v
    rw [step, GoMap.get?_cons]
    by_cases hap : a = p
    · subst hap
      have hrn : GoMap.get? r a = none := (GoMap.get?_eq_none_iff r a).mpr har
      rw [if_pos rfl, fileNameStep_self s d cp W a fa v hcpa, hrn, hcpa]
      constructor
      · rintro (h | ⟨f, h, _⟩)
        · exact Or.inr ⟨fa, rfl, h⟩
        · exact Option.noConfusion h
      · rintro (h | ⟨f, h, h'⟩)
        · exact Option.noConfusion h
        · have : fa = f := Option.some.inj h
          subst this
          exact Or.inl h'
    · rw [if_neg hap, fileNameStep_fst_get? s d cp W a fa p hap]
      have key : ∀ f, GoMap.get? r p = some f →
          (NeedsCopy (fileNameStep s d (cp, W) (a, fa)).2 (Replace p s d) f
            ↔ NeedsCopy W (Replace p s d) f) := by
        intro f hf
        have hp : ∃ rest, p = s ++ '/' :: rest := hr.2 p (GoMap.mem_keys_of_get? r p f hf)
        have hne : Replace a s d ≠ Replace p s d :=
          fun e => hap (Replace_injOn s d a p ha hp e)
        unfold NeedsCopy
        rw [fileNameStep_snd_get? s d cp W a fa _ hne]
      constructor
      · rintro (h | ⟨f, h, hv, hc⟩)
        · exact Or.inl h
        · exact Or.inr ⟨f, h, hv, (key f h).mp hc⟩
      · rintro (h | ⟨f, h, hv, hc⟩)
        · exact Or.inl h
        · exact Or.inr ⟨f, h, hv, (key f h).mpr hc⟩

theorem foldl_fileNameStep_keeps (s d : Str) (L : GoMap File) :
    ∀ (cp : GoMap Str) (W : GoMap File) (k : Str), (∀ p ∈ L.keys, Replace p s d ≠ k) →
      (L.foldl (fileNameStep s d) (cp, W)).2.get? k = W.get? k := by
  induction L with
  | nil =>
    intro cp W k _
    rfl
  | cons e r ih =>
    obtain ⟨a, fa⟩ := e
    intro cp W k h
    rw [List.foldl_cons]
    have h1 := ih (fileNameStep s d (cp, W) (a, fa)).1 (fileNameStep s d (cp, W) (a, fa)).2 k
      (fun p hp => h p (List.mem_cons_of_mem _ hp))
    rw [h1]
    exact fileNameStep_snd_get? s d cp W a fa k (h a (List.mem_cons_self _ _))

/-! ## The second loop of fileName -/

theorem foldl_mark_get? (W : GoMap File) :
    ∀ (acc : GoMap Str) (k : Str),
      (W.foldl (fun (m : GoMap Str) (e : Str × File) => m.set e.1 []) acc).get? k
        = if k ∈ W.keys then some [] else acc.get? k := by
  induction W with
  | nil =>
    intro acc k
    show acc.get? k = if k ∈ ([] : List Str) then _ else _
    rw [if_neg (List.not_mem_nil k)]
  | cons e r ih =>
    obtain ⟨a, fa⟩ := e
    intro acc k
    rw [List.foldl_cons, ih, GoMap.keys_cons, GoMap.get?_set]
    by_cases hk : k ∈ GoMap.keys r
    · rw [if_pos hk, if_pos (List.mem_cons_of_mem _ hk)]
    · rw [if_neg hk]
      by_cases hak : a = k
      · subst hak
        rw [if_pos rfl, if_pos (List.mem_cons_self _ _)]
      · have : k ∉ a :: GoMap.keys r := by
          intro h
          rcases List.mem_cons.mp h with h1 | h1
          · exact hak h1.symm
          · exact hk h1
        rw [if_neg hak, if_neg this]

/-! ## The work sets of fileName -/

theorem foldl_fileNameStep_nodup (s d : Str) (L : GoMap File) :
    ∀ (cp : GoMap Str) (W : GoMap File), cp.keys.Nodup →
      (L.foldl (fileNameStep s d) (cp, W)).1.keys.Nodup := by
  induction L with
  | nil =>
    intro cp W h
    exact h
  | cons e r ih =>
    intro cp W h
    rw [List.foldl_cons]
    have hstep : (fileNameStep s d (cp, W) e).1.keys.Nodup := by
      unfold fileNameStep
      dsimp only
      split
      · exact GoMap.nodup_keys_set cp _ _ h
      · split
        · exact GoMap.nodup_keys_set cp _ _ h
        · exact h
    exact ih (fileNameStep s d (cp, W) e).1 (fileNameStep s d (cp, W) e).2 hstep

/-- C1: for every source snapshot `S` of the root `s`, destination snapshot `D`
and root `d`, the copy set of `fileName` maps `p` to `v` exactly when `p` is a key
of `S`, `v` is `p` with `s` replaced by `d`, and `D` has no entry at `v` or one of
another size; each key occurs once. An equal-size pair is never copied. -/
theorem fileName_copy_set_exact (s d : Str) (S D : GoMap File) (hS : IsSnapshot s S)
    (p v : Str) :
    ((fileNameLoop s d S D).1.get? p = some v
      ↔ ∃ f, S.get? p = some f ∧ v = Replace p s d ∧
          (D.get? (Replace p s d) = none
            ∨ ∃ fd, D.get? (Replace p s d) = some fd ∧ fd.Size ≠ f.Size))
    ∧ (fileNameLoop s d S D).1.keys.Nodup := by
  refine ⟨?_, foldl_fileNameStep_nodup s d S [] D List.nodup_nil⟩
  have h := foldl_fileNameStep_copy s d S [] D hS (fun _ _ => rfl) p v
  unfold fileNameLoop
  dsimp only
  rw [h]
  unfold NeedsCopy
  constructor
  · rintro (h1 | h1)
    · exact Option.noConfusion h1
    · exact h1
  · exact Or.inr

/-- C1, at the snapshots of `srcThree` and `dstThree`: `s/a` (4 bytes against 7)
is copied to `d/a`. -/
theorem fileName_copy_set_exact_witness :
    IsSnapshot "s".toList (scanDir srcThree "s".toList).1
    ∧ ((fileNameLoop "s".toList "d".toList (scanDir srcThree "s".toList).1
          (scanDir dstThree "d".toList).1).1.get? "s/a".toList = some "d/a".toList
      ↔ ∃ f, (scanDir srcThree "s".toList).1.get? "s/a".toList = some f
          ∧ "d/a".toList = Replace "s/a".toList "s".toList "d".toList
          ∧ ((scanDir dstThree "d".toList).1.get? (Replace "s/a".toList "s".toList "d".toList)
                = none
              ∨ ∃ fd, (scanDir dstThree "d".toList).1.get?
                  (Replace "s/a".toList "s".toList "d".toList) = some fd ∧ fd.Size ≠ f.Size)) :=
  ⟨scanDir_isSnapshot srcThree "s".toList,
    (fileName_copy_set_exact "s".toList "d".toList (scanDir srcThree "s".toList).1
      (scanDir dstThree "d".toList).1 (scanDir_isSnapshot srcThree "s".toList)
      "s/a".toList "d/a".toList).1⟩

/-- C3: every key of `D` that is not the destination-equivalent path of a key of
`S` is a key of the delete set of `fileName`, with the empty string as its value;
when `S` is empty the keys of the delete set are the keys of `D`. -/
theorem fileName_delete_set_covers (s d : Str) (S D : GoMap File) :
    (∀ k ∈ D.keys, (∀ p ∈ S.keys, Replace p s d ≠ k) →
        (fileNameLoop s d S D).2.get? k = some [])
    ∧ (∀ k, k ∈ (fileNameLoop s d [] D).2.keys ↔ k ∈ D.keys) := by
  constructor
  · intro k hk hne
    unfold fileNameLoop
    dsimp only
    rw [foldl_mark_get?]
    have h1 := foldl_fileNameStep_keeps s d S [] D k hne
    have h2 : k ∈ GoMap.keys (List.foldl (fileNameStep s d) ([], D) S).2 := by
      by_contra hc
      rw [← GoMap.get?_eq_none_iff, h1, GoMap.get?_eq_none_iff] at hc
      exact hc hk
    rw [if_pos h2]
  · intro k
    unfold fileNameLoop
    dsimp only
    rw [List.foldl_nil]
    have h := foldl_mark_get? D [] k
    constructor
    · intro hk
      by_contra hc
      rw [if_neg hc] at h
      exact (GoMap.get?_eq_none_iff _ k).mp h hk
    · intro hk
      rw [if_pos hk] at h
      exact GoMap.mem_keys_of_get? _ k [] h

/-- C5: every path `scanDir(s)` produces is `s`, a slash and a rest; on such a
path `strings.Replace(p, s, d, 1)` is `d`, the slash and the same rest, also when
`s` occurs again in the rest; and the mapping is injective on these paths. -/
theorem replace_root_prefix (s d : Str) :
    (∀ (src : Node), ∀ p ∈ (scanDir src s).1.keys,
        ∃ rest, p = s ++ '/' :: rest ∧ Replace p s d = d ++ '/' :: rest)
    ∧ (∀ rest, Replace (s ++ '/' :: rest) s d = d ++ '/' :: rest)
    ∧ (∀ rest rest', Replace (s ++ '/' :: rest) s d = Replace (s ++ '/' :: rest') s d →
        s ++ '/' :: rest = s ++ '/' :: rest') := by
  refine ⟨?_, fun rest => Replace_append s d _, ?_⟩
  · intro src p hp
    obtain ⟨rest, hr⟩ := (scanDir_isSnapshot src s).2 p hp
    exact ⟨rest, hr, by rw [hr, Replace_append]⟩
  · intro rest rest' h
    exact Replace_injOn s d _ _ ⟨rest, rfl⟩ ⟨rest', rfl⟩ h

/-- C2, on the code: with `a` of 4 bytes in the source and of 7 bytes in the
destination, `fileName` puts `s/a -> d/a` in the copy set and `d/a`, the
destination of that copy, in the delete set. -/
theorem fileName_deletes_copy_destination :
    fileName "s".toList "d".toList srcFour dstSeven
      = ([("s/a".toList, "d/a".toList)], [("d/a".toList, [])], none) := by
  decide

/-- C4, on the code: with `a` of 4 bytes in the source and of 7 bytes in the
destination, the plan is to copy `s/a` to `d/a` and to delete `d/a`; when the
copy completes before the delete, the destination is empty and the second plan
copies `s/a` again. -/
theorem second_plan_not_empty :
    fileNameLoop "s".toList "d".toList (scanDir srcFour "s".toList).1
        (scanDir dstSeven "d".toList).1
      = ([("s/a".toList, "d/a".toList)], [("d/a".toList, [])])
    ∧ carryOut (scanDir srcFour "s".toList).1
        (carryOut (scanDir srcFour "s".toList).1 (scanDir dstSeven "d".toList).1
          (.copy { Source := "s/a".toList, Destination := "d/a".toList }))
        (.delete { Source := "d/a".toList, Destination := [] }) = []
    ∧ fileNameLoop "s".toList "d".toList (scanDir srcFour "s".toList).1 []
      = ([("s/a".toList, "d/a".toList)], []) := by
  decide

/-! ## copyFile -/

/-- C7, on the code: whatever the operating system and its state, when `os.Open`
fails on the source of the task (for a source that does not exist, with
`os.ErrNotExist`) `copyFile` returns that error and not `nil`, having made no
other call, so the file system and the destination are as they were. The check
that returns `nil` on `os.ErrNotExist` is reached only once `os.Open` has
succeeded. -/
theorem copyFile_missing_source_is_error {σ : Type} (os : OS σ) (st : σ) (f : SyncFile) :
    (∀ err, os.Open st f.Source = some err → copyFile os st f = (st, some err))
    ∧ (os.Stat st f.Source = some .notExist →
        (copyFile os st f = (st, none) ↔ os.Open st f.Source = none)) := by
  constructor
  · intro err h
    unfold copyFile
    rw [h]
  · intro hs
    unfold copyFile
    cases ho : os.Open st f.Source with
    | none =>
      dsimp only
      rw [if_pos hs]
      exact ⟨fun _ => rfl, fun _ => rfl⟩
    | some err =>
      dsimp only
      constructor
      · intro h
        exact Option.noConfusion (Prod.mk.inj h).2
      · intro h
        exact Option.noConfusion h

/-! ## removeEmptyDir -/

theorem walk_eq_dir (removes : List Str → Bool) (t : Node) (pre : List Str)
    (es' : List (Str × Node)) (h : walk removes t pre = (some (.dir es'), none)) :
    ∃ es, t = .dir es
      ∧ ((es ≠ [] ∧ walk.walkNames removes es pre = (es', none))
        ∨ (es = [] ∧ es' = [] ∧ removes pre = false)) := by
  cases t with
  | file size =>
    rw [walk] at h
    exact Node.noConfusion (Option.some.inj (Prod.mk.inj h).1)
  | dir entries =>
    cases entries with
    | nil =>
      refine ⟨[], rfl, Or.inr ⟨rfl, ?_⟩⟩
      rw [walk] at h
      simp only [walkFn, IsEmptyDir] at h
      cases hr : removes pre with
      | true =>
        rw [hr] at h
        exact Option.noConfusion (Prod.mk.inj h).1
      | false =>
        rw [hr] at h
        rw [walk.walkNames] at h
        exact ⟨(Node.dir.inj (Option.some.inj (Prod.mk.inj h).1)).symm, rfl⟩
    | cons e es =>
      rw [walk] at h
      simp only [walkFn, IsEmptyDir] at h
      refine ⟨e :: es, rfl, Or.inl ⟨List.cons_ne_nil _ _, ?_⟩⟩
      have h1 : (walk.walkNames removes (e :: es) pre).1 = es' :=
        Node.dir.inj (Option.some.inj (Prod.mk.inj h).1)
      have h2 : (walk.walkNames removes (e :: es) pre).2 = none := (Prod.mk.inj h).2
      rw [← h1, ← h2]
  | lockedDir =>
    rw [walk] at h
    exact Option.noConfusion (Prod.mk.inj h).2
  | noent =>
    rw [walk] at h
    exact Option.noConfusion (Prod.mk.inj h).2
  | denied =>
    rw [walk] at h
    exact Option.noConfusion (Prod.mk.inj h).2

theorem walkNames_mem (removes : List Str → Bool) (pre : List Str) (l : List (Str × Node)) :
    ∀ (l' : List (Str × Node)) (name : Str) (c' : Node),
      walk.walkNames removes l pre = (l', none) → (name, c') ∈ l' →
        ∃ c, (name, c) ∈ l ∧ walk removes c (pre ++ [name]) = (some c', none) := by
  induction l with
  | nil =>
    intro l' name c' h hm
    rw [walk.walkNames] at h
    rw [← (Prod.mk.inj h).1] at hm
    exact absurd hm (List.not_mem_nil _)
  | cons e rest ih =>
    obtain ⟨n, c⟩ := e
    intro l' name c' h hm
    rw [walk.walkNames] at h
    have hrest : walk.walkNames removes rest pre
        = ((walk.walkNames removes rest pre).1, (walk.walkNames removes rest pre).2) := rfl
    split at h
    · exact Option.noConfusion (Prod.mk.inj h).2
    · exact Option.noConfusion (Prod.mk.inj h).2
    · rename_i c1 hw
      have h1 := (Prod.mk.inj h).1
      have h2 := (Prod.mk.inj h).2
      rw [h2] at hrest
      rw [← h1] at hm
      rcases List.mem_cons.mp hm with hm1 | hm1
      · have hn : name = n := (Prod.mk.inj hm1).1
        have hc : c' = c1 := (Prod.mk.inj hm1).2
        subst hn
        subst hc
        exact ⟨c, List.mem_cons_self _ _, hw⟩
      · obtain ⟨c0, hc0, hw0⟩ := ih _ name c' hrest hm1
        exact ⟨c0, List.mem_cons_of_mem _ hc0, hw0⟩
    · have h1 := (Prod.mk.inj h).1
      have h2 := (Prod.mk.inj h).2
      rw [h2] at hrest
      rw [← h1] at hm
      obtain ⟨c0, hc0, hw0⟩ := ih _ name c' hrest hm
      exact ⟨c0, List.mem_cons_of_mem _ hc0, hw0⟩

theorem walk_dirAt (removes : List Str → Bool) (path : List Str) :
    ∀ (t t' : Node) (pre : List Str) (es' : List (Str × Node)),
      walk removes t pre = (some t', none) → DirAt t' path es' →
        ∃ es, DirAt t path es ∧ (es ≠ [] ∨ removes (pre ++ path) = false) := by
  induction path with
  | nil =>
    intro t t' pre es' h hd
    cases hd
    obtain ⟨es, ht, hcase⟩ := walk_eq_dir removes t pre es' h
    subst ht
    refine ⟨es, DirAt.here _, ?_⟩
    rcases hcase with ⟨hne, _⟩ | ⟨_, _, hr⟩
    · exact Or.inl hne
    · right
      rw [List.append_nil]
      exact hr
  | cons name path ih =>
    intro t t' pre es' h hd
    cases hd with
    | down hmem hsub =>
      rename_i c' es1
      obtain ⟨es, ht, hcase⟩ := walk_eq_dir removes t pre es1 h
      subst ht
      rcases hcase with ⟨_, hw⟩ | ⟨_, he, _⟩
      · obtain ⟨c, hc, hwc⟩ := walkNames_mem removes pre es es1 name c' hw hmem
        obtain ⟨es0, hd0, hor⟩ := ih c c' (pre ++ [name]) es' hwc hsub
        refine ⟨es0, DirAt.down hc hd0, ?_⟩
        rw [List.append_assoc] at hor
        exact hor
      · rw [he] at hmem
        exact absurd hmem (List.not_mem_nil _)

theorem walkNames_forward (removes : List Str → Bool) (pre : List Str)
    (l : List (Str × Node)) :
    ∀ (l' : List (Str × Node)) (name : Str) (c : Node),
      walk.walkNames removes l pre = (l', none) → (name, c) ∈ l →
        ∃ r, walk removes c (pre ++ [name]) = (r, none) ∧ ∀ c', r = some c' → (name, c') ∈ l' := by
  induction l with
  | nil =>
    intro l' name c _ hm
    exact absurd hm (List.not_mem_nil _)
  | cons e rest ih =>
    obtain ⟨n, c0⟩ := e
    intro l' name c h hm
    rw [walk.walkNames] at h
    have hrest : walk.walkNames removes rest pre
        = ((walk.walkNames removes rest pre).1, (walk.walkNames removes rest pre).2) := rfl
    split at h
    · exact Option.noConfusion (Prod.mk.inj h).2
    · exact Option.noConfusion (Prod.mk.inj h).2
    · rename_i c1 hw
      have h1 := (Prod.mk.inj h).1
      have h2 := (Prod.mk.inj h).2
      rw [h2] at hrest
      rcases List.mem_cons.mp hm with hm1 | hm1
      · have hn : name = n := (Prod.mk.inj hm1).1
        have hc : c = c0 := (Prod.mk.inj hm1).2
        subst hn
        subst hc
        refine ⟨some c1, hw, ?_⟩
        intro c' hc'
        rw [← h1, ← Option.some.inj hc']
        exact List.mem_cons_self _ _
      · obtain ⟨r, hr, hall⟩ := ih _ name c hrest hm1
        refine ⟨r, hr, ?_⟩
        intro c' hc'
        rw [← h1]
        exact List.mem_cons_of_mem _ (hall c' hc')
    · rename_i hw
      have h1 := (Prod.mk.inj h).1
      have h2 := (Prod.mk.inj h).2
      rw [h2] at hrest
      rcases List.mem_cons.mp hm with hm1 | hm1
      · have hn : name = n := (Prod.mk.inj hm1).1
        have hc : c = c0 := (Prod.mk.inj hm1).2
        subst hn
        subst hc
        refine ⟨none, hw, ?_⟩
        intro c' hc'
        exact Option.noConfusion hc'
      · obtain ⟨r, hr, hall⟩ := ih _ name c hrest hm1
        refine ⟨r, hr, ?_⟩
        intro c' hc'
        rw [← h1]
        exact hall c' hc'

theorem walkNames_all_empty (removes : List Str → Bool) (pre : List Str)
    (l : List (Str × Node))
    (h : ∀ e ∈ l, e.2 = .dir [] ∧ removes (pre ++ [e.1]) = true) :
    walk.walkNames removes l pre = ([], none) := by
  induction l with
  | nil => rw [walk.walkNames]
  | cons e rest ih =>
    obtain ⟨n, c⟩ := e
    obtain ⟨hc, hr⟩ := h (n, c) (List.mem_cons_self _ _)
    have hc' : c = .dir [] := hc
    have hr' : removes (pre ++ [n]) = true := hr
    subst hc'
    have hw : walk removes (.dir []) (pre ++ [n]) = (none, none) := by
      rw [walk]
      simp only [walkFn, IsEmptyDir, hr']
    rw [walk.walkNames, hw]
    dsimp only
    rw [ih (fun e he => h e (List.mem_cons_of_mem _ he))]

theorem dirAt_nonempty (t : Node) (path : List Str) (es : List (Str × Node))
    (h : DirAt t path es) (hne : es ≠ []) : ∃ e0 es0, t = .dir (e0 :: es0) := by
  cases h with
  | here =>
    obtain ⟨e0, es0, he⟩ := List.exists_cons_of_ne_nil hne
    exact ⟨e0, es0, by rw [he]⟩
  | down hmem _ =>
    rename_i c es1
    obtain ⟨e0, es0, he⟩ := List.exists_cons_of_ne_nil (List.ne_nil_of_mem hmem)
    exact ⟨e0, es0, by rw [he]⟩

theorem walk_cons_some (removes : List Str → Bool) (e0 : Str × Node) (es0 : List (Str × Node))
    (pre : List Str) :
    walk removes (.dir (e0 :: es0)) pre
      = (some (.dir (walk.walkNames removes (e0 :: es0) pre).1),
          (walk.walkNames removes (e0 :: es0) pre).2) := by
  rw [walk]
  simp only [walkFn, IsEmptyDir]

theorem walk_only_empty (removes : List Str → Bool) (path : List Str) :
    ∀ (t t' : Node) (pre : List Str) (es : List (Str × Node)),
      walk removes t pre = (some t', none) → DirAt t path es → es ≠ [] →
      (∀ e ∈ es, e.2 = .dir [] ∧ removes (pre ++ path ++ [e.1]) = true) →
        DirAt t' path [] := by
  induction path with
  | nil =>
    intro t t' pre es h hd hne hall
    cases hd
    cases es with
    | nil => exact absurd rfl hne
    | cons e0 es0 =>
      rw [walk_cons_some] at h
      have hw := walkNames_all_empty removes pre (e0 :: es0)
        (fun e he => by
          have := hall e he
          rw [List.append_nil] at this
          exact this)
      rw [hw] at h
      rw [← Option.some.inj (Prod.mk.inj h).1]
      exact DirAt.here _
  | cons name path ih =>
    intro t t' pre es h hd hne hall
    cases hd with
    | down hmem hsub =>
      rename_i c es1
      cases es1 with
      | nil => exact absurd hmem (List.not_mem_nil _)
      | cons e0 es0 =>
        rw [walk_cons_some] at h
        have h1 := Option.some.inj (Prod.mk.inj h).1
        have h2 : (walk.walkNames removes (e0 :: es0) pre).2 = none := (Prod.mk.inj h).2
        have hw : walk.walkNames removes (e0 :: es0) pre
            = ((walk.walkNames removes (e0 :: es0) pre).1, none) := by
          rw [← h2]
        obtain ⟨r, hr, hfw⟩ := walkNames_forward removes pre (e0 :: es0) _ name c hw hmem
        obtain ⟨f0, fs0, hc⟩ := dirAt_nonempty c path es hsub hne
        subst hc
        rw [walk_cons_some] at hr
        have hr1 := (Prod.mk.inj hr).1
        have hr2 := (Prod.mk.inj hr).2
        have hwc : walk removes (.dir (f0 :: fs0)) (pre ++ [name])
            = (some (.dir (walk.walkNames removes (f0 :: fs0) (pre ++ [name])).1), none) := by
          rw [walk_cons_some, hr2]
        have hsub' := ih _ _ (pre ++ [name]) es hwc hsub hne
          (fun e he => by
            have := hall e he
            rw [List.append_assoc pre [name] path]
            exact this)
        rw [← h1]
        exact DirAt.down (hfw _ hr1.symm) hsub'

/-- C10, refuted: the root of `nestedEmpty` holds only the empty directory `a`;
after `removeEmptyDir`, with every `os.RemoveAll` succeeding, the root remains
and has zero entries. On `brokenThenEmpty` the walk stops with an error at `a`,
so the empty directory `e` remains. And an empty directory that `os.RemoveAll`
fails to remove remains, with no error returned. -/
theorem removeEmptyDir_leaves_empty_dir :
    (removeEmptyDir (fun _ => true) nestedEmpty = (some (.dir []), none)
      ∧ DirAt (.dir []) [] [])
    ∧ (removeEmptyDir (fun _ => true) brokenThenEmpty
          = (some brokenThenEmpty, some .notExist)
        ∧ DirAt brokenThenEmpty ["e".toList] [])
    ∧ removeEmptyDir (fun _ => false) (.dir []) = (some (.dir []), none) :=
  ⟨⟨rfl, DirAt.here _⟩, ⟨rfl, DirAt.down (List.mem_cons_of_mem _ (List.mem_cons_self _ _))
    (DirAt.here _)⟩, rfl⟩

theorem mem_of_distinct_names (es : List (Str × Node)) (h : (es.map Prod.fst).Nodup)
    (name : Str) (c1 c2 : Node) (h1 : (name, c1) ∈ es) (h2 : (name, c2) ∈ es) : c1 = c2 := by
  induction es with
  | nil => exact absurd h1 (List.not_mem_nil _)
  | cons e t ih =>
    rw [List.map_cons, List.nodup_cons] at h
    have hfst : ∀ (c : Node), (name, c) ∈ t → name ∈ t.map Prod.fst :=
      fun c hc => List.mem_map.mpr ⟨(name, c), hc, rfl⟩
    rcases List.mem_cons.mp h1 with e1 | e1
    · rcases List.mem_cons.mp h2 with e2 | e2
      · exact (Prod.mk.inj (e1.trans e2.symm)).2
      · exfalso
        apply h.1
        rw [← e1]
        exact hfst c2 e2
    · rcases List.mem_cons.mp h2 with e2 | e2
      · exfalso
        apply h.1
        rw [← e2]
        exact hfst c1 e1
      · exact ih h.2 e1 e2

theorem dirAt_unique (path : List Str) :
    ∀ (t : Node) (es1 es2 : List (Str × Node)), DistinctNames t → DirAt t path es1 →
      DirAt t path es2 → es1 = es2 := by
  induction path with
  | nil =>
    intro t es1 es2 _ h1 h2
    cases h1
    cases h2
    rfl
  | cons name path ih =>
    intro t es1 es2 hd h1 h2
    cases h1 with
    | down hm1 hs1 =>
      cases h2 with
      | down hm2 hs2 =>
        cases hd with
        | dir _ hnd hall =>
          have hc := mem_of_distinct_names _ hnd name _ _ hm1 hm2
          subst hc
          exact ih _ es1 es2 (hall _ hm1) hs1 hs2

/-- C10, amended: after `removeEmptyDir(root)` has run without error, every
directory that remains in the tree, the root included, had at least one entry
before the call or is one that `os.RemoveAll` fails to remove; where the names
in each directory are distinct, no directory that was empty before the call and
that `os.RemoveAll` can remove remains; and a directory that held nothing but
such empty directories remains, with zero entries. -/
theorem removeEmptyDir_remaining_were_nonempty (removes : List Str → Bool)
    (root root' : Node) (h : removeEmptyDir removes root = (some root', none)) :
    (∀ (path : List Str) (es' : List (Str × Node)), DirAt root' path es' →
        ∃ es, DirAt root path es ∧ (es ≠ [] ∨ removes path = false))
    ∧ (DistinctNames root → ∀ (path : List Str), DirAt root path [] → removes path = true →
        ∀ es', ¬ DirAt root' path es')
    ∧ (∀ (path : List Str) (es : List (Str × Node)), DirAt root path es → es ≠ [] →
        (∀ e ∈ es, e.2 = .dir [] ∧ removes (path ++ [e.1]) = true) →
          DirAt root' path []) := by
  have key : ∀ (path : List Str) (es' : List (Str × Node)), DirAt root' path es' →
      ∃ es, DirAt root path es ∧ (es ≠ [] ∨ removes path = false) := by
    intro path es' hd
    have := walk_dirAt removes path root root' [] es' h hd
    rw [List.nil_append] at this
    exact this
  refine ⟨key, ?_, ?_⟩
  · intro hdn path hempty hrem es' hd
    obtain ⟨es, hes, hor⟩ := key path es' hd
    have he := dirAt_unique path root es [] hdn hes hempty
    rcases hor with hne | hr
    · exact hne he
    · rw [hrem] at hr
      exact Bool.noConfusion hr
  · intro path es hd hne hall
    exact walk_only_empty removes path root root' [] es h hd hne
      (fun e he => by
        rw [List.nil_append]
        exact hall e he)

/-- C10, amended, with every `os.RemoveAll` succeeding. On `emptyAndFull`: `a` is
removed, and the directory `b` that remains held the file `f` before the call.
On `nestedEmpty`: the root, which held nothing but the empty directory `a`,
remains with zero entries. -/
theorem removeEmptyDir_remaining_were_nonempty_witness :
    (removeEmptyDir (fun _ => true) emptyAndFull
        = (some (.dir [("b".toList, .dir [("f".toList, .file 1)])]), none)
      ∧ ∃ es, DirAt emptyAndFull ["b".toList] es
          ∧ (es ≠ [] ∨ (fun (_ : List Str) => true) ["b".toList] = false))
    ∧ (removeEmptyDir (fun _ => true) nestedEmpty = (some (.dir []), none)
      ∧ DirAt (.dir []) [] []) :=
  ⟨⟨rfl, (removeEmptyDir_remaining_were_nonempty (fun _ => true) emptyAndFull
      (.dir [("b".toList, .dir [("f".toList, .file 1)])]) rfl).1 ["b".toList]
      [("f".toList, .file 1)]
      (DirAt.down (List.mem_cons_self _ _) (DirAt.here _))⟩,
    ⟨rfl, (removeEmptyDir_remaining_were_nonempty (fun _ => true) nestedEmpty
      (.dir []) rfl).2.2 [] [("a".toList, .dir [])] (DirAt.here _)
      (List.cons_ne_nil _ _)
      (fun e he => by
        rw [List.mem_singleton.mp he]
        exact ⟨rfl, rfl⟩)⟩⟩

/-! ## The pipeline -/

theorem getElem?_split {α : Type} (ws : List α) :
    ∀ (i : Nat) (w : α), ws[i]? = some w →
      ∃ l r, ws = l ++ w :: r ∧ ∀ w', ws.set i w' = l ++ w' :: r := by
  induction ws with
  | nil =>
    intro i w h
    simp at h
  | cons a t ih =>
    intro i w h
    cases i with
    | zero =>
      simp at h
      subst h
      exact ⟨[], t, rfl, fun _ => rfl⟩
    | succ j =>
      simp at h
      obtain ⟨l, r, h1, h2⟩ := ih j w h
      refine ⟨a :: l, r, by rw [h1]; rfl, fun w' => ?_⟩
      rw [List.set_cons_succ, h2 w']
      rfl

theorem exitedCount_split (l r : List Worker) (w : Worker) :
    exitedCount (l ++ w :: r) = exitedCount l + exitedCount r + (if w = .exited then 1 else 0) := by
  unfold exitedCount
  rw [List.count_append, List.count_cons]
  by_cases h : w = .exited
  · simp [h]
    omega
  · simp [h]

theorem inflight_split (p : Process) (l r : List Worker) (w : Worker) :
    (inflight p (l ++ w :: r) : Multiset (Option Err))
      = (inflight p l : Multiset (Option Err)) + inflight p r + Worker.out p w := by
  unfold inflight
  rw [List.flatMap_append, List.flatMap_cons]
  simp only [← Multiset.coe_add]
  abel

theorem set_facts (p : Process) (ws : List Worker) (i : Nat) (w w' : Worker)
    (h : ws[i]? = some w) :
    (ws.set i w').length = ws.length
    ∧ exitedCount (ws.set i w') + (if w = .exited then 1 else 0)
        = exitedCount ws + (if w' = .exited then 1 else 0)
    ∧ (inflight p (ws.set i w') : Multiset (Option Err)) + Worker.out p w
        = (inflight p ws : Multiset (Option Err)) + Worker.out p w' := by
  obtain ⟨l, r, h1, h2⟩ := getElem?_split ws i w h
  refine ⟨List.length_set _ _ _, ?_, ?_⟩
  · rw [h2 w', h1, exitedCount_split, exitedCount_split]
    omega
  · rw [h2 w', h1, inflight_split, inflight_split]
    abel

theorem inflight_append_idle (p : Process) (ws : List Worker) :
    inflight p (ws ++ [.idle]) = inflight p ws := by
  unfold inflight
  rw [List.flatMap_append]
  simp [Worker.out]

theorem exitedCount_append_idle (ws : List Worker) :
    exitedCount (ws ++ [.idle]) = exitedCount ws := by
  unfold exitedCount
  rw [List.count_append]
  simp

theorem step_inv (p : Process) (n : Nat) (tasks : List SyncFile) (st st' : Pipeline) (a : Action)
    (hinv : Inv p n tasks st) (h : step p n st a = some st') : Inv p n tasks st' := by
  cases a with
  | spawn =>
    simp only [step] at h
    split at h
    · rename_i hlt
      obtain rfl := Option.some.inj h
      refine ⟨hinv.sent_pending, hinv.closed_pending, ?_, ?_, ?_, ?_, hinv.out_wg,
        hinv.finished_out, hinv.counter_eq⟩
      · dsimp only
        rw [inflight_append_idle]
        exact hinv.outcomes
      · dsimp only
        rw [exitedCount_append_idle]
        exact hinv.wg_exited
      · dsimp only
        rw [List.length_append]
        exact hlt
      · dsimp only
        rw [exitedCount_append_idle]
        exact hinv.exited_closed
    · exact Option.noConfusion h
  | send i =>
    simp only [step] at h
    split at h
    · rename_i f rest hp hw
      obtain rfl := Option.some.inj h
      obtain ⟨hlen, hex, hfl⟩ := set_facts p st.workers i .idle (.holding f) hw
      simp only [Worker.out, if_false, reduceCtorEq, add_zero, Multiset.coe_nil] at hex hfl
      refine ⟨?_, ?_, ?_, ?_, ?_, ?_, hinv.out_wg, hinv.finished_out, hinv.counter_eq⟩
      · dsimp only
        rw [List.append_assoc]
        have := hinv.sent_pending
        rw [hp] at this
        exact this
      · dsimp only
        intro hc
        have := hinv.closed_pending hc
        rw [hp] at this
        exact List.noConfusion this
      · dsimp only
        rw [hfl, List.map_append, ← Multiset.coe_add, ← hinv.outcomes]
        simp only [List.map_cons, List.map_nil]
        abel
      · dsimp only
        rw [hex]
        exact hinv.wg_exited
      · dsimp only
        rw [hlen]
        exact hinv.length_le
      · dsimp only
        rw [hex]
        exact hinv.exited_closed
    · exact Option.noConfusion h
  | closeFiles =>
    simp only [step] at h
    split at h
    · rename_i hc
      obtain rfl := Option.some.inj h
      exact ⟨hinv.sent_pending, fun _ => hc.1, hinv.outcomes, hinv.wg_exited, hinv.length_le,
        fun _ => rfl, hinv.out_wg, hinv.finished_out, hinv.counter_eq⟩
    · exact Option.noConfusion h
  | run i =>
    simp only [step] at h
    split at h
    · rename_i f hw
      obtain rfl := Option.some.inj h
      obtain ⟨hlen, hex, hfl⟩ := set_facts p st.workers i (.holding f) (.done (p f)) hw
      simp only [Worker.out, if_false, reduceCtorEq, add_zero] at hex hfl
      refine ⟨hinv.sent_pending, hinv.closed_pending, ?_, ?_, ?_, ?_, hinv.out_wg,
        hinv.finished_out, hinv.counter_eq⟩
      · dsimp only
        rw [add_left_inj] at hfl
        rw [hfl]
        exact hinv.outcomes
      · dsimp only
        rw [hex]
        exact hinv.wg_exited
      · dsimp only
        rw [hlen]
        exact hinv.length_le
      · dsimp only
        rw [hex]
        exact hinv.exited_closed
    · exact Option.noConfusion h
  | emit i =>
    simp only [step] at h
    split at h
    · rename_i err hw
      split at h
      · obtain rfl := Option.some.inj h
        obtain ⟨hlen, hex, hfl⟩ := set_facts p st.workers i (.done err) .idle hw
        simp only [Worker.out, if_false, reduceCtorEq, add_zero, Multiset.coe_nil] at hex hfl
        refine ⟨hinv.sent_pending, hinv.closed_pending, ?_, ?_, ?_, ?_, hinv.out_wg, ?_,
          hinv.counter_eq⟩
        · dsimp only
          rw [← hinv.outcomes, ← hfl, ← Multiset.coe_add]
          abel
        · dsimp only
          rw [hex]
          exact hinv.wg_exited
        · dsimp only
          rw [hlen]
          exact hinv.length_le
        · dsimp only
          rw [hex]
          exact hinv.exited_closed
        · dsimp only
          intro hf
          have hw0 := hinv.out_wg (hinv.finished_out hf).2
          have h1 := hinv.wg_exited
          have hlen' := hinv.length_le
          obtain ⟨l, r, h2, _⟩ := getElem?_split st.workers i (.done err) hw
          rw [h2, exitedCount_split] at h1
          rw [h2, List.length_append, List.length_cons] at hlen'
          have hl : exitedCount l ≤ l.length := List.count_le_length _ _
          have hr : exitedCount r ≤ r.length := List.count_le_length _ _
          simp only [reduceCtorEq, if_false] at h1
          omega
      · exact Option.noConfusion h
    · exact Option.noConfusion h
  | quit i =>
    simp only [step] at h
    split at h
    · rename_i hw
      split at h
      · rename_i hc
        obtain rfl := Option.some.inj h
        obtain ⟨hlen, hex, hfl⟩ := set_facts p st.workers i .idle .exited hw
        simp only [Worker.out, if_false, if_true, reduceCtorEq, add_zero, Multiset.coe_nil]
          at hex hfl
        refine ⟨hinv.sent_pending, hinv.closed_pending, ?_, ?_, ?_, fun _ => hc, ?_,
          hinv.finished_out, hinv.counter_eq⟩
        · dsimp only
          rw [hfl]
          exact hinv.outcomes
        · dsimp only
          have h1 := hinv.wg_exited
          have hlen' := hinv.length_le
          obtain ⟨l, r, h2, _⟩ := getElem?_split st.workers i .idle hw
          rw [h2, exitedCount_split] at h1
          rw [h2, List.length_append, List.length_cons] at hlen'
          have hl : exitedCount l ≤ l.length := List.count_le_length _ _
          have hr : exitedCount r ≤ r.length := List.count_le_length _ _
          simp only [reduceCtorEq, if_false] at h1
          have h3 := hinv.wg_exited
          omega
        · dsimp only
          rw [hlen]
          exact hinv.length_le
        · dsimp only
          intro ho
          rw [hinv.out_wg ho]
      · exact Option.noConfusion h
    · exact Option.noConfusion h
  | closeOut =>
    simp only [step] at h
    split at h
    · rename_i hc
      obtain rfl := Option.some.inj h
      exact ⟨hinv.sent_pending, hinv.closed_pending, hinv.outcomes, hinv.wg_exited,
        hinv.length_le, hinv.exited_closed, fun _ => hc.1,
        fun hf => ⟨(hinv.finished_out hf).1, rfl⟩, hinv.counter_eq⟩
    · exact Option.noConfusion h
  | recv =>
    simp only [step] at h
    split at h
    · rename_i err rest hco
      split at h
      · rename_i hnf
        obtain rfl := Option.some.inj h
        refine ⟨hinv.sent_pending, hinv.closed_pending, ?_, hinv.wg_exited, hinv.length_le,
          hinv.exited_closed, hinv.out_wg, ?_, ?_⟩
        · dsimp only
          have := hinv.outcomes
          rw [hco] at this
          rw [← this, ← Multiset.coe_add, ← Multiset.cons_coe, ← Multiset.singleton_add]
          simp only [← Multiset.coe_add, ← Multiset.cons_coe, ← Multiset.singleton_add]
          abel
        · dsimp only
          intro hf
          rw [hnf] at hf
          exact Bool.noConfusion hf
        · dsimp only
          rw [List.countP_append, hinv.counter_eq]
          cases err with
          | none => rfl
          | some e => rfl
      · exact Option.noConfusion h
    · exact Option.noConfusion h
  | finish =>
    simp only [step] at h
    split at h
    · rename_i hc
      obtain rfl := Option.some.inj h
      exact ⟨hinv.sent_pending, hinv.closed_pending, hinv.outcomes, hinv.wg_exited,
        hinv.length_le, hinv.exited_closed, hinv.out_wg, fun _ => ⟨hc.1, hc.2.1⟩,
        hinv.counter_eq⟩
    · exact Option.noConfusion h

theorem init_inv (p : Process) (n : Nat) (files : GoMap Str) :
    Inv p n (tasksOf files) (Pipeline.init files n) where
  sent_pending := rfl
  closed_pending := fun h => Bool.noConfusion h
  outcomes := rfl
  wg_exited := rfl
  length_le := Nat.zero_le n
  exited_closed := fun h => absurd rfl h
  out_wg := fun h => Bool.noConfusion h
  finished_out := fun h => Bool.noConfusion h
  counter_eq := rfl

theorem exec_inv (p : Process) (n : Nat) (tasks : List SyncFile) (run : List Action) :
    ∀ (st st' : Pipeline), Inv p n tasks st → exec p n st run = some st' → Inv p n tasks st' := by
  induction run with
  | nil =>
    intro st st' hinv h
    rw [exec] at h
    obtain rfl := Option.some.inj h
    exact hinv
  | cons a as ih =>
    intro st st' hinv h
    rw [exec] at h
    split at h
    · rename_i st1 hs
      exact ih st1 st' (step_inv p n tasks st st1 a hinv hs) h
    · exact Option.noConfusion h

theorem inflight_all_exited (p : Process) (ws : List Worker)
    (h : exitedCount ws = ws.length) : inflight p ws = [] := by
  unfold exitedCount at h
  rw [List.count_eq_length] at h
  unfold inflight
  rw [List.flatMap_eq_nil_iff]
  intro w hw
  rw [← h w hw]
  rfl

theorem inv_finished (p : Process) (n : Nat) (tasks : List SyncFile) (st : Pipeline)
    (hn : 1 ≤ n) (hinv : Inv p n tasks st) (hf : st.finished = true) :
    st.sent = tasks ∧ st.pending = [] ∧ st.inClosed = true
      ∧ st.received.Perm (tasks.map p) := by
  obtain ⟨hco, hoc⟩ := hinv.finished_out hf
  have hwg := hinv.out_wg hoc
  have h1 := hinv.wg_exited
  have h2 := hinv.length_le
  have h3 : exitedCount st.workers ≤ st.workers.length := List.count_le_length _ _
  have hex : exitedCount st.workers = st.workers.length := by omega
  have hic : st.inClosed = true := hinv.exited_closed (by omega)
  have hp : st.pending = [] := hinv.closed_pending hic
  have hs : st.sent = tasks := by
    have := hinv.sent_pending
    rw [hp, List.append_nil] at this
    exact this
  refine ⟨hs, hp, hic, ?_⟩
  have ho := hinv.outcomes
  rw [hco, inflight_all_exited p st.workers hex, hs] at ho
  simp only [Multiset.coe_nil, add_zero] at ho
  exact Multiset.coe_eq_coe.mp ho

theorem inv_counter_le (p : Process) (n : Nat) (tasks : List SyncFile) (st : Pipeline)
    (hinv : Inv p n tasks st) :
    (st.received : Multiset (Option Err)) ≤ (tasks.map p : List (Option Err)) := by
  have ho := hinv.outcomes
  have hs := hinv.sent_pending
  have h1 : (st.received : Multiset (Option Err)) ≤ (st.sent.map p : List (Option Err)) := by
    rw [← ho, add_assoc]
    exact Multiset.le_add_right _ _
  refine le_trans h1 ?_
  rw [← hs, List.map_append, ← Multiset.coe_add]
  exact Multiset.le_add_right _ _

/-! ## A run that reaches the end -/

theorem exec_append (p : Process) (n : Nat) (as bs : List Action) :
    ∀ (st st' : Pipeline), exec p n st as = some st' →
      exec p n st (as ++ bs) = exec p n st' bs := by
  induction as with
  | nil =>
    intro st st' h
    rw [exec] at h
    obtain rfl := Option.some.inj h
    rfl
  | cons a as ih =>
    intro st st' h
    rw [List.cons_append]
    cases hs : step p n st a with
    | none =>
      simp only [exec, hs] at h
      exact Option.noConfusion h
    | some st1 =>
      simp only [exec, hs] at h ⊢
      exact ih st1 st' h

theorem exec_spawns (p : Process) (n : Nat) (k : Nat) :
    ∀ (st : Pipeline), st.workers.length + k ≤ n →
      exec p n st (List.replicate k Action.spawn)
        = some { st with workers := st.workers ++ List.replicate k Worker.idle } := by
  induction k with
  | zero =>
    intro st _
    simp [exec]
  | succ k ih =>
    intro st h
    have hlt : st.workers.length < n := by omega
    rw [List.replicate_succ, exec]
    simp only [step, hlt, if_true]
    rw [ih]
    · simp [List.replicate_succ]
    · simp only [List.length_append, List.length_singleton]
      omega

theorem exec_tasks (p : Process) (n : Nat) (hn : 1 ≤ n) (fs : List SyncFile) :
    ∀ (sent : List SyncFile) (ws : List Worker) (wg : Nat) (recvd : List (Option Err))
      (cnt : Nat),
      exec p n
          { pending := fs, sent := sent, inClosed := false, workers := .idle :: ws, wg := wg,
            chanOut := [], outClosed := false, received := recvd, counter := cnt,
            finished := false }
          (fs.flatMap (fun _ => [Action.send 0, Action.run 0, Action.emit 0, Action.recv]))
        = some
          { pending := [], sent := sent ++ fs, inClosed := false, workers := .idle :: ws,
            wg := wg, chanOut := [], outClosed := false, received := recvd ++ fs.map p,
            counter := cnt + (fs.map p).countP Option.isNone, finished := false } := by
  induction fs with
  | nil =>
    intro sent ws wg recvd cnt
    simp [exec]
  | cons f rest ih =>
    intro sent ws wg recvd cnt
    have h0 : 0 < n := hn
    rw [List.flatMap_cons]
    show exec p n _ (Action.send 0 :: Action.run 0 :: Action.emit 0 :: Action.recv
      :: rest.flatMap (fun _ => [Action.send 0, Action.run 0, Action.emit 0, Action.recv])) = _
    simp only [exec, step, List.getElem?_cons_zero, List.set_cons_zero, List.length_nil, h0,
      if_true, List.nil_append]
    rw [ih]
    cases hp : p f with
    | none =>
      simp [hp, List.countP_cons]
      omega
    | some e => simp [hp, List.countP_cons]

theorem exec_quits (p : Process) (n : Nat) (m : Nat) :
    ∀ (k : Nat) (pending sent : List SyncFile) (wg : Nat) (chanOut : List (Option Err))
      (outClosed : Bool) (recvd : List (Option Err)) (cnt : Nat) (fin : Bool),
      exec p n
          { pending := pending, sent := sent, inClosed := true,
            workers := List.replicate k Worker.exited ++ List.replicate m Worker.idle,
            wg := wg, chanOut := chanOut, outClosed := outClosed, received := recvd,
            counter := cnt, finished := fin }
          ((List.range' k m).map Action.quit)
        = some
          { pending := pending, sent := sent, inClosed := true,
            workers := List.replicate (k + m) Worker.exited,
            wg := wg - m, chanOut := chanOut, outClosed := outClosed, received := recvd,
            counter := cnt, finished := fin } := by
  induction m with
  | zero =>
    intro k pending sent wg chanOut outClosed recvd cnt fin
    simp [exec]
  | succ m ih =>
    intro k pending sent wg chanOut outClosed recvd cnt fin
    have hget : (List.replicate k Worker.exited ++ List.replicate (m + 1) Worker.idle)[k]?
        = some Worker.idle := by
      rw [List.getElem?_append_right (by simp)]
      simp [List.replicate_succ]
    have hset : (List.replicate k Worker.exited ++ List.replicate (m + 1) Worker.idle).set k
          Worker.exited
        = List.replicate (k + 1) Worker.exited ++ List.replicate m Worker.idle := by
      rw [List.set_append_right _ _ (by simp)]
      simp only [List.length_replicate, Nat.sub_self, List.replicate_succ, List.set_cons_zero]
      rw [← List.replicate_succ, List.replicate_succ', List.append_assoc]
      rfl
    simp only [List.range'_succ, List.map_cons, exec, step, hget, if_true, hset]
    rw [ih (k + 1)]
    simp only [Option.some.injEq, Pipeline.mk.injEq, true_and, and_true]
    constructor
    · congr 1
      omega
    · omega

theorem exec_closing (p : Process) (n : Nat) (sent : List SyncFile)
    (recvd : List (Option Err)) (cnt : Nat) :
    exec p n
        { pending := [], sent := sent, inClosed := false,
          workers := List.replicate n Worker.idle, wg := n, chanOut := [], outClosed := false,
          received := recvd, counter := cnt, finished := false }
        (Action.closeFiles :: ((List.range n).map Action.quit
          ++ [Action.closeOut, Action.finish]))
      = some
        { pending := [], sent := sent, inClosed := true,
          workers := List.replicate n Worker.exited, wg := 0, chanOut := [], outClosed := true,
          received := recvd, counter := cnt, finished := true } := by
  have hq := exec_quits p n n 0 [] sent n [] false recvd cnt false
  rw [List.replicate_zero, List.nil_append, Nat.zero_add, Nat.sub_self] at hq
  rw [← List.range_eq_range'] at hq
  rw [exec]
  simp only [step, and_self, if_true]
  rw [exec_append p n _ _ _ _ hq]
  simp [exec, step]

theorem exec_fullRun (p : Process) (n : Nat) (files : GoMap Str) (h : 1 ≤ n ∨ files = []) :
    exec p n (Pipeline.init files n) (fullRun files n)
      = some
        { pending := [], sent := tasksOf files, inClosed := true,
          workers := List.replicate n Worker.exited, wg := 0, chanOut := [], outClosed := true,
          received := (tasksOf files).map p, counter := ((tasksOf files).map p).countP Option.isNone,
          finished := true } := by
  unfold fullRun
  rw [List.append_assoc, List.append_assoc, List.append_assoc]
  have hs := exec_spawns p n n (Pipeline.init files n) (by simp [Pipeline.init])
  rw [exec_append p n _ _ _ _ hs]
  have ht : exec p n
      { Pipeline.init files n with
        workers := (Pipeline.init files n).workers ++ List.replicate n Worker.idle }
      ((tasksOf files).flatMap
        (fun _ => [Action.send 0, Action.run 0, Action.emit 0, Action.recv]))
      = some
        { pending := [], sent := tasksOf files, inClosed := false,
          workers := List.replicate n Worker.idle, wg := n, chanOut := [], outClosed := false,
          received := (tasksOf files).map p, counter := ((tasksOf files).map p).countP Option.isNone,
          finished := false } := by
    rcases h with h | h
    · obtain ⟨m, rfl⟩ : ∃ m, n = m + 1 := ⟨n - 1, by omega⟩
      have := exec_tasks p (m + 1) h (tasksOf files) [] (List.replicate m Worker.idle) (m + 1) [] 0
      simp only [List.nil_append, Nat.zero_add] at this
      simpa [Pipeline.init, List.replicate_succ] using this
    · subst h
      simp [Pipeline.init, tasksOf, exec]
  rw [exec_append p n _ _ _ _ ht]
  exact exec_closing p n _ _ _

/-! ## No run blocks, and every run is finite -/

theorem step_possible (p : Process) (n : Nat) (tasks : List SyncFile) (st : Pipeline)
    (hn : 1 ≤ n) (hinv : Inv p n tasks st) (hf : st.finished = false) :
    ∃ a st', step p n st a = some st' := by
  by_cases hlen : st.workers.length < n
  · exact ⟨.spawn, _, by simp only [step, hlen, if_true]; rfl⟩
  by_cases hh : ∃ f, Worker.holding f ∈ st.workers
  · obtain ⟨f, hm⟩ := hh
    obtain ⟨i, hi⟩ := List.mem_iff_getElem?.mp hm
    exact ⟨.run i, _, by simp only [step, hi]; rfl⟩
  by_cases hd : ∃ e, Worker.done e ∈ st.workers
  · obtain ⟨e, hm⟩ := hd
    obtain ⟨i, hi⟩ := List.mem_iff_getElem?.mp hm
    by_cases hroom : st.chanOut.length < n
    · exact ⟨.emit i, _, by simp only [step, hi, hroom, if_true]; rfl⟩
    · cases hco : st.chanOut with
      | nil =>
        rw [hco] at hroom
        exact absurd (by simpa using hn) hroom
      | cons err rest =>
        exact ⟨.recv, _, by simp only [step, hco, hf, if_true]; rfl⟩
  by_cases hidle : Worker.idle ∈ st.workers
  · obtain ⟨i, hi⟩ := List.mem_iff_getElem?.mp hidle
    cases hp : st.pending with
    | cons f rest => exact ⟨.send i, _, by simp only [step, hp, hi]; rfl⟩
    | nil =>
      cases hc : st.inClosed with
      | false => exact ⟨.closeFiles, _, by simp only [step, hp, hc, and_self, if_true]; rfl⟩
      | true => exact ⟨.quit i, _, by simp only [step, hi, hc, if_true]; rfl⟩
  have hall : exitedCount st.workers = st.workers.length := by
    unfold exitedCount
    rw [List.count_eq_length]
    intro w hw
    cases w with
    | idle => exact absurd hw hidle
    | holding f => exact absurd ⟨f, hw⟩ hh
    | done e => exact absurd ⟨e, hw⟩ hd
    | exited => rfl
  have h1 := hinv.wg_exited
  have h2 := hinv.length_le
  have hwg : st.wg = 0 := by omega
  cases ho : st.outClosed with
  | false => exact ⟨.closeOut, _, by simp only [step, hwg, ho, and_self, if_true]; rfl⟩
  | true =>
    cases hco : st.chanOut with
    | cons err rest => exact ⟨.recv, _, by simp only [step, hco, hf, if_true]; rfl⟩
    | nil => exact ⟨.finish, _, by simp only [step, hco, ho, hf, and_self, if_true]; rfl⟩

theorem load_split (l r : List Worker) (w : Worker) :
    load (l ++ w :: r) = load l + load r + w.weight := by
  unfold load
  rw [List.map_append, List.sum_append, List.map_cons, List.sum_cons]
  omega

theorem load_set (ws : List Worker) (i : Nat) (w w' : Worker) (h : ws[i]? = some w) :
    load (ws.set i w') + w.weight = load ws + w'.weight := by
  obtain ⟨l, r, h1, h2⟩ := getElem?_split ws i w h
  rw [h2 w', h1, load_split, load_split]
  omega

theorem step_stepsLeft (p : Process) (n : Nat) (st st' : Pipeline) (a : Action)
    (h : step p n st a = some st') : stepsLeft n st' < stepsLeft n st := by
  cases a with
  | spawn =>
    simp only [step] at h
    split at h
    · rename_i hlt
      obtain rfl := Option.some.inj h
      simp only [stepsLeft, load, List.length_append, List.length_singleton, List.map_append,
        List.sum_append, List.map_cons, List.map_nil, List.sum_cons, List.sum_nil, Worker.weight]
      omega
    · exact Option.noConfusion h
  | send i =>
    simp only [step] at h
    split at h
    · rename_i f rest hp hw
      obtain rfl := Option.some.inj h
      have hl := load_set st.workers i .idle (.holding f) hw
      simp only [Worker.weight] at hl
      simp only [stepsLeft, hp, List.length_cons, List.length_set]
      omega
    · exact Option.noConfusion h
  | closeFiles =>
    simp only [step] at h
    split at h
    · rename_i hc
      obtain rfl := Option.some.inj h
      simp only [stepsLeft, hc.2]
      simp
    · exact Option.noConfusion h
  | run i =>
    simp only [step] at h
    split at h
    · rename_i f hw
      obtain rfl := Option.some.inj h
      have hl := load_set st.workers i (.holding f) (.done (p f)) hw
      simp only [Worker.weight] at hl
      simp only [stepsLeft, List.length_set]
      omega
    · exact Option.noConfusion h
  | emit i =>
    simp only [step] at h
    split at h
    · rename_i err hw
      split at h
      · obtain rfl := Option.some.inj h
        have hl := load_set st.workers i (.done err) .idle hw
        simp only [Worker.weight] at hl
        simp only [stepsLeft, List.length_set, List.length_append, List.length_singleton]
        omega
      · exact Option.noConfusion h
    · exact Option.noConfusion h
  | quit i =>
    simp only [step] at h
    split at h
    · rename_i hw
      split at h
      · obtain rfl := Option.some.inj h
        have hl := load_set st.workers i .idle .exited hw
        simp only [Worker.weight] at hl
        simp only [stepsLeft, List.length_set]
        omega
      · exact Option.noConfusion h
    · exact Option.noConfusion h
  | closeOut =>
    simp only [step] at h
    split at h
    · rename_i hc
      obtain rfl := Option.some.inj h
      simp only [stepsLeft, hc.2]
      simp
    · exact Option.noConfusion h
  | recv =>
    simp only [step] at h
    split at h
    · rename_i err rest hco
      split at h
      · obtain rfl := Option.some.inj h
        simp only [stepsLeft, hco, List.length_cons]
        omega
      · exact Option.noConfusion h
    · exact Option.noConfusion h
  | finish =>
    simp only [step] at h
    split at h
    · rename_i hc
      obtain rfl := Option.some.inj h
      simp only [stepsLeft, hc.2.2]
      simp
    · exact Option.noConfusion h

theorem exec_stepsLeft (p : Process) (n : Nat) (run : List Action) :
    ∀ (st st' : Pipeline), exec p n st run = some st' →
      stepsLeft n st' + run.length ≤ stepsLeft n st := by
  induction run with
  | nil =>
    intro st st' h
    rw [exec] at h
    obtain rfl := Option.some.inj h
    exact Nat.le_refl _
  | cons a as ih =>
    intro st st' h
    cases hs : step p n st a with
    | none =>
      simp only [exec, hs] at h
      exact Option.noConfusion h
    | some st1 =>
      simp only [exec, hs] at h
      have h1 := ih st1 st' h
      have h2 := step_stepsLeft p n st st1 a hs
      rw [List.length_cons]
      omega

/-! ## The outcomes of a pipeline, and the result of syncFolder -/

theorem inv_counter_le_count (p : Process) (n : Nat) (tasks : List SyncFile) (st : Pipeline)
    (hinv : Inv p n tasks st) : st.counter ≤ (tasks.map p).countP Option.isNone := by
  have h := Multiset.coe_le.mp (inv_counter_le p n tasks st hinv)
  rw [hinv.counter_eq]
  exact h.countP_le _

theorem count_none_eq_length (p : Process) (tasks : List SyncFile) :
    (tasks.map p).countP Option.isNone = tasks.length ↔ ∀ f ∈ tasks, p f = none := by
  rw [← List.length_map tasks p, List.countP_eq_length]
  constructor
  · intro h f hf
    exact Option.isNone_iff_eq_none.mp (h (p f) (List.mem_map_of_mem p hf))
  · intro h b hb
    obtain ⟨f, hf, rfl⟩ := List.mem_map.mp hb
    exact Option.isNone_iff_eq_none.mpr (h f hf)

theorem length_tasksOf (files : GoMap Str) : (tasksOf files).length = files.length :=
  List.length_map _ _

theorem syncFolder_some (w : World) (s d : Str) (n : Nat) (runDelete runCopy : List Action)
    (b : Bool) (h : syncFolder w s d n runDelete runCopy = some b) :
    ∃ pd pc,
      exec w.deleteFile n
          (Pipeline.init (fileName (w.Clean s) (w.Clean d) w.src w.dst).2.1 n) runDelete = some pd
      ∧ exec w.copyFile n
          (Pipeline.init (fileName (w.Clean s) (w.Clean d) w.src w.dst).1 n) runCopy = some pc
      ∧ pd.finished = true ∧ pc.finished = true
      ∧ b = decide ((fileName (w.Clean s) (w.Clean d) w.src w.dst).1.length
            + (fileName (w.Clean s) (w.Clean d) w.src w.dst).2.1.length
          = pc.counter + pd.counter) := by
  unfold syncFolder at h
  dsimp only at h
  split at h
  · rename_i pd pc hd hc
    split at h
    · rename_i hf
      exact ⟨pd, pc, hd, hc, hf.1, hf.2, (Option.some.inj h).symm⟩
    · exact Option.noConfusion h
  · exact Option.noConfusion h

theorem fileName_scan_error (s d : Str) (src dst : Node)
    (h : (scanDir src s).2 ≠ none ∨ (scanDir dst d).2 ≠ none) :
    (fileName s d src dst).1 = [] ∧ (fileName s d src dst).2.1 = []
      ∧ (fileName s d src dst).2.2 ≠ none := by
  unfold fileName
  split
  · exact ⟨rfl, rfl, fun e => Option.noConfusion e⟩
  · exact ⟨rfl, rfl, fun e => Option.noConfusion e⟩
  · rename_i h1 h2
    rw [h1, h2] at h
    rcases h with h | h
    · exact absurd rfl h
    · exact absurd rfl h

/-- C9: with at least one worker, a pipeline over the work set `files` has a run
to its end; every run is finite and, unless the loop over the outcomes has
ended, can go on; what `dispatcher` has sent and has still to send is, in order,
one `SyncFile{Source: k, Destination: v}` for each entry `(k, v)` of `files`,
each once and nothing else; and at the end `dispatcher` has sent them all and
closed its channel, and the outcomes received are a permutation of `p` applied
to each of these tasks, `len(files)` of them. -/
theorem dispatcher_process_outcomes (files : GoMap Str) (p : Process) (n : Nat)
    (hn : 1 ≤ n) :
    (∃ st, exec p n (Pipeline.init files n) (fullRun files n) = some st ∧ st.finished = true)
    ∧ ∀ (run : List Action) (st : Pipeline),
        exec p n (Pipeline.init files n) run = some st →
          run.length ≤ 2 * n + 4 * files.length + 3
          ∧ st.sent ++ st.pending
              = files.map (fun e => ({ Source := e.1, Destination := e.2 } : SyncFile))
          ∧ (st.finished = false → ∃ a st', step p n st a = some st')
          ∧ (st.finished = true →
              st.sent = files.map (fun e => ({ Source := e.1, Destination := e.2 } : SyncFile))
              ∧ st.pending = [] ∧ st.inClosed = true
              ∧ st.received.Perm
                  (files.map (fun e => p { Source := e.1, Destination := e.2 }))
              ∧ st.received.length = files.length) := by
  refine ⟨⟨_, exec_fullRun p n files (Or.inl hn), rfl⟩, ?_⟩
  intro run st h
  have hinv := exec_inv p n (tasksOf files) run _ st (init_inv p n files) h
  refine ⟨?_, hinv.sent_pending, step_possible p n _ st hn hinv, ?_⟩
  · have hb := exec_stepsLeft p n run _ st h
    have h0 : stepsLeft n (Pipeline.init files n) = 2 * n + 4 * files.length + 3 := by
      simp [stepsLeft, Pipeline.init, load, length_tasksOf]
    omega
  · intro hf
    obtain ⟨h1, h2, h3, h4⟩ := inv_finished p n _ st hn hinv hf
    have h5 : ((tasksOf files).map p)
        = files.map (fun e => p { Source := e.1, Destination := e.2 }) := by
      unfold tasksOf
      rw [List.map_map]
      rfl
    rw [h5] at h4
    refine ⟨h1, h2, h3, h4, ?_⟩
    rw [h4.length_eq, List.length_map]

/-- C9, on the work set of `TestDispatcher` with two workers and the operation
`testOp`, which returns `nil` on the task the test expects and an error on
any other: at the end of the run the task sent is that task, and the one outcome
received is `nil`. -/
theorem dispatcher_process_outcomes_witness :
    1 ≤ 2
    ∧ ∃ st, exec testOp 2 (Pipeline.init testFiles 2) (fullRun testFiles 2) = some st
        ∧ st.finished = true
        ∧ st.sent = [{ Source := "/tmp/testdir/file1.txt".toList,
                       Destination := "/tmp/testdirsync/file1.txt".toList }]
        ∧ st.received.Perm [none]
        ∧ st.received.length = 1 := by
  refine ⟨by decide, ?_⟩
  have h := dispatcher_process_outcomes testFiles testOp 2 (by decide)
  obtain ⟨st, hst, hfin⟩ := h.1
  obtain ⟨h1, _, _, h4, h5⟩ := (h.2 (fullRun testFiles 2) st hst).2.2.2 hfin
  exact ⟨st, hst, hfin, h1, h4, h5⟩

/-- C8: with at least one worker, `syncFolder` returns (both pipelines have a run
to their end), and whatever the runs, it returns `true` exactly when `copyFile`
returned no error for every task of the copy set and `deleteFile` none for every
task of the delete set. -/
theorem syncFolder_true_iff_no_task_failed (w : World) (s d : Str) (n : Nat) (hn : 1 ≤ n) :
    (∃ b, syncFolder w s d n
        (fullRun (fileName (w.Clean s) (w.Clean d) w.src w.dst).2.1 n)
        (fullRun (fileName (w.Clean s) (w.Clean d) w.src w.dst).1 n) = some b)
    ∧ ∀ (runDelete runCopy : List Action) (b : Bool),
        syncFolder w s d n runDelete runCopy = some b →
          (b = true ↔
            (∀ f ∈ tasksOf (fileName (w.Clean s) (w.Clean d) w.src w.dst).1, w.copyFile f = none)
            ∧ (∀ f ∈ tasksOf (fileName (w.Clean s) (w.Clean d) w.src w.dst).2.1,
                w.deleteFile f = none)) := by
  constructor
  · unfold syncFolder
    dsimp only
    rw [exec_fullRun _ n _ (Or.inl hn), exec_fullRun _ n _ (Or.inl hn)]
    dsimp only
    rw [if_pos ⟨rfl, rfl⟩]
    exact ⟨_, rfl⟩
  · intro runDelete runCopy b h
    obtain ⟨pd, pc, hd, hc, hfd, hfc, hb⟩ := syncFolder_some w s d n runDelete runCopy b h
    have hid := exec_inv _ n _ runDelete _ pd (init_inv _ n _) hd
    have hic := exec_inv _ n _ runCopy _ pc (init_inv _ n _) hc
    have hpd := (inv_finished _ n _ pd hn hid hfd).2.2.2
    have hpc := (inv_finished _ n _ pc hn hic hfc).2.2.2
    have hcd : pd.counter = _ := hid.counter_eq
    have hcc : pc.counter = _ := hic.counter_eq
    rw [hpd.countP_eq] at hcd
    rw [hpc.countP_eq] at hcc
    have hld := inv_counter_le_count _ n _ pd hid
    have hlc := inv_counter_le_count _ n _ pc hic
    have hd1 := count_none_eq_length w.deleteFile
      (tasksOf (fileName (w.Clean s) (w.Clean d) w.src w.dst).2.1)
    have hc1 := count_none_eq_length w.copyFile
      (tasksOf (fileName (w.Clean s) (w.Clean d) w.src w.dst).1)
    have hd2 := List.countP_le_length Option.isNone
      (l := (tasksOf (fileName (w.Clean s) (w.Clean d) w.src w.dst).2.1).map w.deleteFile)
    have hc2 := List.countP_le_length Option.isNone
      (l := (tasksOf (fileName (w.Clean s) (w.Clean d) w.src w.dst).1).map w.copyFile)
    rw [List.length_map] at hd2 hc2
    rw [length_tasksOf] at hd1 hc1 hd2 hc2
    rw [hb, decide_eq_true_eq, ← hd1, ← hc1, hcd, hcc]
    constructor
    · intro he
      constructor <;> omega
    · rintro ⟨h1, h2⟩
      omega

/-- C8, on `oneFailureWorld` with two workers: the copy to `d/a` fails and
`syncFolder` returns `false`. -/
theorem syncFolder_true_iff_no_task_failed_witness :
    1 ≤ 2
    ∧ syncFolder oneFailureWorld "s".toList "d".toList 2
        (fullRun (fileName "s".toList "d".toList srcThree dstThree).2.1 2)
        (fullRun (fileName "s".toList "d".toList srcThree dstThree).1 2) = some false
    ∧ (false = true ↔
        (∀ f ∈ tasksOf (fileName "s".toList "d".toList srcThree dstThree).1,
            oneFailureWorld.copyFile f = none)
        ∧ (∀ f ∈ tasksOf (fileName "s".toList "d".toList srcThree dstThree).2.1,
            oneFailureWorld.deleteFile f = none)) :=
  ⟨by decide, by decide,
    (syncFolder_true_iff_no_task_failed oneFailureWorld "s".toList "d".toList 2 (by decide)).2
      (fullRun (fileName "s".toList "d".toList srcThree dstThree).2.1 2)
      (fullRun (fileName "s".toList "d".toList srcThree dstThree).1 2) false (by decide)⟩

/-- C6, refuted: the source root does not exist, `scanDir` returns
`os.ErrNotExist`, and `syncFolder` returns `true`. -/
theorem syncFolder_missing_source_returns_true :
    (scanDir noSourceWorld.src (noSourceWorld.Clean "s".toList)).2 = some .notExist
    ∧ syncFolder noSourceWorld "s".toList "d".toList 2 (fullRun [] 2) (fullRun [] 2)
        = some true := by
  decide

/-- C6, amended: if scanning the source tree or the destination tree fails,
`fileName` returns `nil` work sets and an error, and `syncFolder` (which only
logs the error and has no task to run) returns `true`, whatever the number of
workers and the runs of the two pipelines. -/
theorem syncFolder_scan_error_returns_true (w : World) (s d : Str) (n : Nat)
    (h : (scanDir w.src (w.Clean s)).2 ≠ none ∨ (scanDir w.dst (w.Clean d)).2 ≠ none) :
    (fileName (w.Clean s) (w.Clean d) w.src w.dst).1 = []
    ∧ (fileName (w.Clean s) (w.Clean d) w.src w.dst).2.1 = []
    ∧ (fileName (w.Clean s) (w.Clean d) w.src w.dst).2.2 ≠ none
    ∧ syncFolder w s d n (fullRun [] n) (fullRun [] n) = some true
    ∧ ∀ (runDelete runCopy : List Action) (b : Bool),
        syncFolder w s d n runDelete runCopy = some b → b = true := by
  obtain ⟨h1, h2, h3⟩ := fileName_scan_error (w.Clean s) (w.Clean d) w.src w.dst h
  refine ⟨h1, h2, h3, ?_, ?_⟩
  · unfold syncFolder
    dsimp only
    rw [h1, h2, exec_fullRun _ n _ (Or.inr rfl), exec_fullRun _ n _ (Or.inr rfl)]
    rfl
  · intro runDelete runCopy b hb
    obtain ⟨pd, pc, hd, hc, _, _, hb'⟩ := syncFolder_some w s d n runDelete runCopy b hb
    have hid := inv_counter_le_count _ n _ pd (exec_inv _ n _ runDelete _ pd (init_inv _ n _) hd)
    have hic := inv_counter_le_count _ n _ pc (exec_inv _ n _ runCopy _ pc (init_inv _ n _) hc)
    rw [h2] at hid
    rw [h1] at hic
    have hd0 : pd.counter = 0 := Nat.le_zero.mp hid
    have hc0 : pc.counter = 0 := Nat.le_zero.mp hic
    rw [hb', h1, h2, hd0, hc0]
    rfl

/-- C6, amended, on `noSourceWorld` with three workers. -/
theorem syncFolder_scan_error_returns_true_witness :
    ((scanDir noSourceWorld.src (noSourceWorld.Clean "s".toList)).2 ≠ none
      ∨ (scanDir noSourceWorld.dst (noSourceWorld.Clean "d".toList)).2 ≠ none)
    ∧ syncFolder noSourceWorld "s".toList "d".toList 3 (fullRun [] 3) (fullRun [] 3)
        = some true :=
  ⟨Or.inl (by decide),
    (syncFolder_scan_error_returns_true noSourceWorld "s".toList "d".toList 3
      (Or.inl (by decide))).2.2.2.1⟩


/-! ## The delete set, exactly -/

theorem GoMap.get?_append_cons {V : Type} (l r : GoMap V) (k : Str) (v : V)
    (h : k ∉ GoMap.keys l) : GoMap.get? (l ++ (k, v) :: r) k = some v := by
  induction l with
  | nil =>
    show GoMap.get? ((k, v) :: r) k = some v
    rw [GoMap.get?_cons, if_pos rfl]
  | cons e t ih =>
    obtain ⟨a, b⟩ := e
    rw [GoMap.keys_cons] at h
    have h1 : a ≠ k := fun e => h (e ▸ List.mem_cons_self _ _)
    have h2 : k ∉ GoMap.keys t := fun e => h (List.mem_cons_of_mem _ e)
    show GoMap.get? ((a, b) :: (t ++ (k, v) :: r)) k = some v
    rw [GoMap.get?_cons, if_neg h1]
    exact ih h2

theorem GoMap.keys_append {V : Type} (l r : GoMap V) :
    GoMap.keys (l ++ r) = GoMap.keys l ++ GoMap.keys r :=
  List.map_append _ _ _

theorem fileNameStep_snd_self (s d : Str) (cp : GoMap Str) (W : GoMap File) (a : Str)
    (fa : File) :
    (fileNameStep s d (cp, W) (a, fa)).2.get? (Replace a s d)
      = match W.get? (Replace a s d) with
        | none => none
        | some fd => if fa.Size = fd.Size then none else some fd := by
  unfold fileNameStep
  dsimp only
  cases h : W.get? (Replace a s d) with
  | none =>
    dsimp only
    exact h
  | some fd =>
    dsimp only
    by_cases hs : fa.Size = fd.Size
    · rw [if_neg (not_not.mpr hs), if_pos hs]
      dsimp only
      rw [GoMap.get?_delete, if_pos rfl]
    · rw [if_pos hs, if_neg hs]
      exact h

theorem foldl_fileNameStep_working (s d : Str) (S D : GoMap File) (hS : IsSnapshot s S)
    (k : Str) :
    (S.foldl (fileNameStep s d) ([], D)).2.get? k = none
      ↔ D.get? k = none
        ∨ ∃ p f fd, S.get? p = some f ∧ Replace p s d = k ∧ D.get? k = some fd
            ∧ f.Size = fd.Size := by
  by_cases hk : ∀ p ∈ S.keys, Replace p s d ≠ k
  · rw [foldl_fileNameStep_keeps s d S [] D k hk]
    constructor
    · exact Or.inl
    · rintro (h | ⟨p, f, fd, hp, hr, _⟩)
      · exact h
      · exact absurd hr (hk p (GoMap.mem_keys_of_get? S p f hp))
  · push_neg at hk
    obtain ⟨p, hp, hr⟩ := hk
    obtain ⟨e, he, hep⟩ := List.mem_map.mp hp
    obtain ⟨p', f⟩ := e
    have : p' = p := hep
    subst this
    obtain ⟨l, r, hlr⟩ := List.append_of_mem he
    have hnd : (GoMap.keys l ++ p' :: GoMap.keys r).Nodup := by
      have := hS.1
      rw [hlr, GoMap.keys_append, GoMap.keys_cons] at this
      exact this
    have hpl : p' ∉ GoMap.keys l := fun h =>
      (List.nodup_append.mp hnd).2.2 h (List.mem_cons_self _ _)
    have hpr : p' ∉ GoMap.keys r :=
      (List.nodup_cons.mp (List.nodup_append.mp hnd).2.1).1
    have hget : S.get? p' = some f := by
      rw [hlr]
      exact GoMap.get?_append_cons l r p' f hpl
    have hunder : ∀ q ∈ S.keys, ∃ rest, q = s ++ '/' :: rest := hS.2
    have hl : ∀ q ∈ GoMap.keys l, Replace q s d ≠ k := by
      intro q hq e
      have hqS : q ∈ S.keys := by
        rw [hlr, GoMap.keys_append]
        exact List.mem_append_left _ hq
      have := Replace_injOn s d q p' (hunder q hqS) (hunder p' hp) (e.trans hr.symm)
      exact hpl (this ▸ hq)
    have hrr : ∀ q ∈ GoMap.keys r, Replace q s d ≠ k := by
      intro q hq e
      have hqS : q ∈ S.keys := by
        rw [hlr, GoMap.keys_append, GoMap.keys_cons]
        exact List.mem_append_right _ (List.mem_cons_of_mem _ hq)
      have := Replace_injOn s d q p' (hunder q hqS) (hunder p' hp) (e.trans hr.symm)
      exact hpr (this ▸ hq)
    have hfold : (S.foldl (fileNameStep s d) ([], D)).2.get? k
        = match D.get? k with
          | none => none
          | some fd => if f.Size = fd.Size then none else some fd := by
      rw [hlr, List.foldl_append, List.foldl_cons]
      rw [foldl_fileNameStep_keeps s d r _ _ k hrr]
      have h1 := foldl_fileNameStep_keeps s d l [] D k hl
      have h2 := fileNameStep_snd_self s d (List.foldl (fileNameStep s d) ([], D) l).1
        (List.foldl (fileNameStep s d) ([], D) l).2 p' f
      rw [hr, h1] at h2
      exact h2
    rw [hfold]
    cases hD : D.get? k with
    | none =>
      dsimp only
      exact ⟨fun _ => Or.inl rfl, fun _ => rfl⟩
    | some fd =>
      dsimp only
      by_cases hs : f.Size = fd.Size
      · rw [if_pos hs]
        exact ⟨fun _ => Or.inr ⟨p', f, fd, hget, hr, rfl, hs⟩, fun _ => rfl⟩
      · rw [if_neg hs]
        constructor
        · intro h
          exact Option.noConfusion h
        · rintro (h | ⟨q, f', fd', hq, hqr, hfd, hsz⟩)
          · exact Option.noConfusion h
          · have hqp : q = p' :=
              Replace_injOn s d q p' (hunder q (GoMap.mem_keys_of_get? S q f' hq))
                (hunder p' hp) (hqr.trans hr.symm)
            subst hqp
            rw [hget] at hq
            have hf : f = f' := Option.some.inj hq
            have hd : fd = fd' := Option.some.inj hfd
            subst hf
            subst hd
            exact absurd hsz hs

theorem fileName_delete_set_keys (s d : Str) (S D : GoMap File) (hS : IsSnapshot s S)
    (k : Str) :
    k ∈ (fileNameLoop s d S D).2.keys
      ↔ k ∈ D.keys
        ∧ ¬ ∃ p f fd, S.get? p = some f ∧ Replace p s d = k ∧ D.get? k = some fd
            ∧ f.Size = fd.Size := by
  have hw := foldl_fileNameStep_working s d S D hS k
  have hm := foldl_mark_get? (S.foldl (fileNameStep s d) ([], D)).2 [] k
  have hkeys : k ∈ (fileNameLoop s d S D).2.keys
      ↔ k ∈ GoMap.keys (S.foldl (fileNameStep s d) ([], D)).2 := by
    unfold fileNameLoop
    dsimp only
    constructor
    · intro h
      by_contra hc
      rw [if_neg hc] at hm
      exact (GoMap.get?_eq_none_iff _ k).mp hm h
    · intro h
      rw [if_pos h] at hm
      exact GoMap.mem_keys_of_get? _ k [] hm
  rw [hkeys]
  constructor
  · intro h
    have hne : ¬ (S.foldl (fileNameStep s d) ([], D)).2.get? k = none := fun e =>
      (GoMap.get?_eq_none_iff _ k).mp e h
    rw [hw] at hne
    push_neg at hne
    refine ⟨?_, ?_⟩
    · by_contra hc
      exact hne.1 ((GoMap.get?_eq_none_iff D k).mpr hc)
    · rintro ⟨p, f, fd, h1, h2, h3, h4⟩
      exact hne.2 p f fd h1 h2 h3 h4
  · rintro ⟨h1, h2⟩
    by_contra hc
    have := (GoMap.get?_eq_none_iff _ k).mpr hc
    rw [hw] at this
    rcases this with h | h
    · exact (GoMap.get?_eq_none_iff D k).mp h h1
    · exact h2 h

/-- The delete set of `fileName`, exactly: for a source snapshot `S` of the root
`s`, a path is a key of the delete set when it is a key of `D` and no source
file of the same size corresponds to it. A destination file whose source file
has another size is therefore a key of the delete set. -/
theorem fileName_delete_set_exact (s d : Str) (S D : GoMap File) (hS : IsSnapshot s S)
    (k : Str) :
    k ∈ (fileNameLoop s d S D).2.keys
      ↔ k ∈ D.keys
        ∧ ¬ ∃ p f fd, S.get? p = some f ∧ Replace p s d = k ∧ D.get? k = some fd
            ∧ f.Size = fd.Size :=
  fileName_delete_set_keys s d S D hS k

/-- The theorem `fileName_delete_set_exact` on the snapshots of `srcThree` and
`dstThree`: `d/a` (7 bytes, against 4 in the source) is a key of the delete set,
so no source file of the same size corresponds to it. -/
theorem fileName_delete_set_exact_witness :
    IsSnapshot "s".toList (scanDir srcThree "s".toList).1
    ∧ ("d/a".toList ∈ (scanDir dstThree "d".toList).1.keys
      ∧ ¬ ∃ p f fd, (scanDir srcThree "s".toList).1.get? p = some f
          ∧ Replace p "s".toList "d".toList = "d/a".toList
          ∧ (scanDir dstThree "d".toList).1.get? "d/a".toList = some fd ∧ f.Size = fd.Size) :=
  ⟨scanDir_isSnapshot srcThree "s".toList,
    (fileName_delete_set_exact "s".toList "d".toList (scanDir srcThree "s".toList).1
      (scanDir dstThree "d".toList).1 (scanDir_isSnapshot srcThree "s".toList)
      "d/a".toList).mp (by decide)⟩

/-! ## Further properties -/

/-- Every map `scanDir(dir)` returns, with or without an error, has each key once,
and each key is `dir`, a slash and the rest of the path. -/
theorem scanDir_keys (t : Node) (dir : Str) :
    (scanDir t dir).1.keys.Nodup
    ∧ ∀ k ∈ (scanDir t dir).1.keys, ∃ rest, k = dir ++ '/' :: rest :=
  scanDir_isSnapshot t dir

theorem mergeMap_lookup_aux (src : GoMap File) :
    ∀ (dst : GoMap File) (k : Str), src.keys.Nodup →
      (mergeMap dst src).get? k
        = match src.get? k with
          | some v => some v
          | none => dst.get? k := by
  induction src with
  | nil =>
    intro dst k _
    rfl
  | cons e r ih =>
    obtain ⟨a, b⟩ := e
    intro dst k h
    rw [GoMap.keys_cons, List.nodup_cons] at h
    have hm : mergeMap dst ((a, b) :: r) = mergeMap (dst.set a b) r := rfl
    rw [hm, ih _ k h.2, GoMap.get?_cons, GoMap.get?_set]
    by_cases hak : a = k
    · subst hak
      rw [if_pos rfl, if_pos rfl, (GoMap.get?_eq_none_iff r a).mpr h.1]
    · rw [if_neg hak, if_neg hak]

/-- After `mergeMap(dst, src)` the map `dst` holds every entry of `src`, and its
other entries are unchanged. -/
theorem mergeMap_lookup (dst src : GoMap File) (k : Str) (h : src.keys.Nodup) :
    (mergeMap dst src).get? k
      = match src.get? k with
        | some v => some v
        | none => dst.get? k :=
  mergeMap_lookup_aux src dst k h

/-- The theorem `mergeMap_lookup` on the maps of `TestMergeMap`, at the key `e`. -/
theorem mergeMap_lookup_witness :
    (GoMap.keys [("e".toList, ({ Path := "pathe".toList, Size := 1000 } : File)),
        ("g".toList, { Path := "pathg".toList, Size := 1000 })]).Nodup
    ∧ (mergeMap [("a".toList, { Path := "patha".toList, Size := 1000 }),
          ("c".toList, { Path := "pathc".toList, Size := 1000 })]
        [("e".toList, { Path := "pathe".toList, Size := 1000 }),
          ("g".toList, { Path := "pathg".toList, Size := 1000 })]).get? "e".toList
      = some { Path := "pathe".toList, Size := 1000 } :=
  ⟨by decide, mergeMap_lookup _ _ "e".toList (by decide)⟩

/-- The case of `TestFileName`: two files in the source and an empty destination;
both are in the copy set and the delete set is empty. -/
theorem fileName_test_case :
    fileName "/tmp/testdir/filename".toList "/tmp/testdirsync/filename".toList
        (.dir [("file1.txt".toList, .file 0), ("file2.txt".toList, .file 0)]) (.dir [])
      = ([("/tmp/testdir/filename/file1.txt".toList,
            "/tmp/testdirsync/filename/file1.txt".toList),
          ("/tmp/testdir/filename/file2.txt".toList,
            "/tmp/testdirsync/filename/file2.txt".toList)], [], none) := by
  decide

theorem GoMap.eq_nil_of_keys {V : Type} (m : GoMap V) (h : ∀ k, k ∉ m.keys) : m = [] := by
  cases m with
  | nil => rfl
  | cons e r =>
    obtain ⟨a, b⟩ := e
    exact absurd (List.mem_cons_self a _) (h a)

theorem GoMap.get?_of_mem_keys {V : Type} (m : GoMap V) (k : Str) (h : k ∈ m.keys) :
    ∃ v, m.get? k = some v := by
  cases hg : m.get? k with
  | none => exact absurd h ((GoMap.get?_eq_none_iff m k).mp hg)
  | some v => exact ⟨v, rfl⟩

theorem fileNameLoop_eq_nil_iff (s d : Str) (S D : GoMap File) (hS : IsSnapshot s S) :
    fileNameLoop s d S D = ([], [])
      ↔ (∀ p f, S.get? p = some f →
            ∃ fd, D.get? (Replace p s d) = some fd ∧ fd.Size = f.Size)
        ∧ (∀ k ∈ D.keys, ∃ p ∈ S.keys, Replace p s d = k) := by
  have hcopy : ∀ p v, (fileNameLoop s d S D).1.get? p = some v
      ↔ ∃ f, S.get? p = some f ∧ v = Replace p s d ∧ NeedsCopy D (Replace p s d) f := by
    intro p v
    have h := foldl_fileNameStep_copy s d S [] D hS (fun _ _ => rfl) p v
    unfold fileNameLoop
    dsimp only
    rw [h]
    constructor
    · rintro (h1 | h1)
      · exact Option.noConfusion h1
      · exact h1
    · exact Or.inr
  constructor
  · intro h
    constructor
    · intro p f hp
      have hnc : ¬ NeedsCopy D (Replace p s d) f := by
        intro hc
        have := (hcopy p (Replace p s d)).mpr ⟨f, hp, rfl, hc⟩
        rw [h] at this
        exact Option.noConfusion this
      unfold NeedsCopy at hnc
      push_neg at hnc
      cases hg : D.get? (Replace p s d) with
      | none => exact absurd hg hnc.1
      | some fd => exact ⟨fd, rfl, hnc.2 fd hg⟩
    · intro k hk
      have hnk : k ∉ (fileNameLoop s d S D).2.keys := by
        rw [h]
        exact List.not_mem_nil k
      rw [fileName_delete_set_keys s d S D hS k] at hnk
      push_neg at hnk
      obtain ⟨p, f, _, hp, hr, _, _⟩ := hnk hk
      exact ⟨p, GoMap.mem_keys_of_get? S p f hp, hr⟩
  · rintro ⟨h1, h2⟩
    have hc : (fileNameLoop s d S D).1 = [] := by
      apply GoMap.eq_nil_of_keys
      intro p hp
      obtain ⟨v, hv⟩ := GoMap.get?_of_mem_keys _ p hp
      obtain ⟨f, hf, _, hnc⟩ := (hcopy p v).mp hv
      obtain ⟨fd, hfd, hsz⟩ := h1 p f hf
      rcases hnc with hn | ⟨fd', hfd', hne⟩
      · rw [hn] at hfd
        exact Option.noConfusion hfd
      · rw [hfd'] at hfd
        have : fd' = fd := Option.some.inj hfd
        subst this
        exact hne hsz
    have hd : (fileNameLoop s d S D).2 = [] := by
      apply GoMap.eq_nil_of_keys
      intro k hk
      rw [fileName_delete_set_keys s d S D hS k] at hk
      obtain ⟨p, hp, hr⟩ := h2 k hk.1
      obtain ⟨f, hf⟩ := GoMap.get?_of_mem_keys S p hp
      obtain ⟨fd, hfd, hsz⟩ := h1 p f hf
      rw [hr] at hfd
      exact hk.2 ⟨p, f, fd, hf, hr, hfd, hsz.symm⟩
    exact Prod.ext hc hd

/-- The plan of `fileName` is empty exactly when the destination matches the
source by size: for a source snapshot `S` of the root `s`, the copy set and the
delete set are both empty when every source file has a destination file of its
size at its destination-equivalent path, and every destination file is at the
destination-equivalent path of a source file. -/
theorem fileName_plan_empty_iff (s d : Str) (S D : GoMap File) (hS : IsSnapshot s S) :
    fileNameLoop s d S D = ([], [])
      ↔ (∀ p f, S.get? p = some f →
            ∃ fd, D.get? (Replace p s d) = some fd ∧ fd.Size = f.Size)
        ∧ (∀ k ∈ D.keys, ∃ p ∈ S.keys, Replace p s d = k) :=
  fileNameLoop_eq_nil_iff s d S D hS

/-- The theorem `fileName_plan_empty_iff` on the snapshot of `srcThree` against
itself under the destination root. -/
theorem fileName_plan_empty_iff_witness :
    IsSnapshot "s".toList (scanDir srcThree "s".toList).1
    ∧ ((∀ p f, (scanDir srcThree "s".toList).1.get? p = some f →
            ∃ fd, (scanDir srcThree "d".toList).1.get? (Replace p "s".toList "d".toList)
                = some fd ∧ fd.Size = f.Size)
        ∧ (∀ k ∈ (scanDir srcThree "d".toList).1.keys,
            ∃ p ∈ (scanDir srcThree "s".toList).1.keys,
              Replace p "s".toList "d".toList = k)) :=
  ⟨scanDir_isSnapshot srcThree "s".toList,
    (fileName_plan_empty_iff "s".toList "d".toList (scanDir srcThree "s".toList).1
      (scanDir srcThree "d".toList).1 (scanDir_isSnapshot srcThree "s".toList)).mp (by decide)⟩

/-- The scenario of `TestSyncFolder`: a file in the source, an empty destination,
two workers and no failing task; `syncFolder` returns `true`. -/
theorem syncFolder_test_case :
    syncFolder
        { Clean := fun x => x, src := .dir [("file1.txt".toList, .file 0)], dst := .dir [],
          copyFile := fun _ => none, deleteFile := fun _ => none }
        "s".toList "d".toList 2 (fullRun [] 2)
        (fullRun [("s/file1.txt".toList, "d/file1.txt".toList)] 2) = some true := by
  decide

/-- Without a worker nothing receives from `dispatcher`: the outcome channel is
closed at once, no task is run, and `syncFolder` returns `false` on a work set
that is not empty, although no task would fail. -/
theorem syncFolder_no_worker :
    syncFolder
        { Clean := fun x => x, src := .dir [("file1.txt".toList, .file 0)], dst := .dir [],
          copyFile := fun _ => none, deleteFile := fun _ => none }
        "s".toList "d".toList 0 [Action.closeFiles, Action.closeOut, Action.finish]
        [Action.closeOut, Action.finish] = some false := by
  decide


/-! ## The plan carried out -/

theorem carryOut_get? (S D : GoMap File) (t : Task) (k : Str) :
    (carryOut S D t).get? k
      = match writeOf S k t with
        | some v => v
        | none => D.get? k := by
  cases t with
  | copy f =>
    unfold carryOut writeOf
    cases hS : S.get? f.Source with
    | none =>
      by_cases hk : f.Destination = k
      · simp only [hS, hk, if_true]
      · simp only [hS, hk, if_false]
    | some fi =>
      by_cases hk : f.Destination = k
      · simp only [hS, GoMap.get?_set, hk, if_true]
      · simp only [hS, GoMap.get?_set, hk, if_false]
  | delete f =>
    unfold carryOut writeOf
    simp only [GoMap.get?_delete]
    by_cases hk : f.Source = k
    · simp only [hk, if_true]
    · simp only [hk, if_false]

theorem foldl_carryOut_untouched (S : GoMap File) (k : Str) (ts : List Task) :
    ∀ (D : GoMap File), (∀ t ∈ ts, writeOf S k t = none) →
      (ts.foldl (carryOut S) D).get? k = D.get? k := by
  induction ts with
  | nil =>
    intro D _
    rfl
  | cons t ts ih =>
    intro D h
    rw [List.foldl_cons, ih _ (fun t' ht' => h t' (List.mem_cons_of_mem _ ht')),
      carryOut_get?, h t (List.mem_cons_self _ _)]

theorem foldl_carryOut_written (S : GoMap File) (k : Str) (v : Option File) (ts : List Task) :
    ∀ (D : GoMap File), (∀ t ∈ ts, writeOf S k t = none ∨ writeOf S k t = some v) →
      (∃ t ∈ ts, writeOf S k t = some v) → (ts.foldl (carryOut S) D).get? k = v := by
  induction ts with
  | nil =>
    intro D _ h
    obtain ⟨t, ht, _⟩ := h
    exact absurd ht (List.not_mem_nil _)
  | cons t ts ih =>
    intro D h hex
    rw [List.foldl_cons]
    by_cases hts : ∃ t' ∈ ts, writeOf S k t' = some v
    · exact ih _ (fun t' ht' => h t' (List.mem_cons_of_mem _ ht')) hts
    · have hnone : ∀ t' ∈ ts, writeOf S k t' = none := by
        intro t' ht'
        rcases h t' (List.mem_cons_of_mem _ ht') with h1 | h1
        · exact h1
        · exact absurd ⟨t', ht', h1⟩ hts
      have ht : writeOf S k t = some v := by
        obtain ⟨t', ht', hw⟩ := hex
        rcases List.mem_cons.mp ht' with e | e
        · rw [← e]
          exact hw
        · exact absurd ⟨t', e, hw⟩ hts
      rw [foldl_carryOut_untouched S k ts _ hnone, carryOut_get?, ht]

theorem GoMap.mem_of_get? {V : Type} (m : GoMap V) (k : Str) (v : V)
    (h : m.get? k = some v) : (k, v) ∈ m := by
  induction m with
  | nil => exact Option.noConfusion h
  | cons e r ih =>
    obtain ⟨a, b⟩ := e
    rw [GoMap.get?_cons] at h
    by_cases hak : a = k
    · rw [if_pos hak] at h
      rw [hak, Option.some.inj h]
      exact List.mem_cons_self _ _
    · rw [if_neg hak] at h
      exact List.mem_cons_of_mem _ (ih h)

theorem GoMap.get?_of_mem {V : Type} (m : GoMap V) (k : Str) (v : V) (hnd : m.keys.Nodup)
    (h : (k, v) ∈ m) : m.get? k = some v := by
  induction m with
  | nil => exact absurd h (List.not_mem_nil _)
  | cons e r ih =>
    obtain ⟨a, b⟩ := e
    rw [GoMap.keys_cons, List.nodup_cons] at hnd
    rw [GoMap.get?_cons]
    rcases List.mem_cons.mp h with e1 | e1
    · rw [(Prod.mk.inj e1).1, (Prod.mk.inj e1).2, if_pos rfl]
    · have hk : k ∈ GoMap.keys r := List.mem_map.mpr ⟨(k, v), e1, rfl⟩
      have hak : a ≠ k := fun e => hnd.1 (e ▸ hk)
      rw [if_neg hak]
      exact ih hnd.2 e1

theorem fileNameLoop_copy_get? (s d : Str) (S D : GoMap File) (hS : IsSnapshot s S)
    (p v : Str) :
    (fileNameLoop s d S D).1.get? p = some v
      ↔ ∃ f, S.get? p = some f ∧ v = Replace p s d ∧ NeedsCopy D (Replace p s d) f := by
  have h := foldl_fileNameStep_copy s d S [] D hS (fun _ _ => rfl) p v
  unfold fileNameLoop
  dsimp only
  rw [h]
  constructor
  · rintro (h1 | h1)
    · exact Option.noConfusion h1
    · exact h1
  · exact Or.inr

theorem mem_plan_copy (cp del : GoMap Str) (f : SyncFile)
    (h : Task.copy f ∈ (tasksOf cp).map Task.copy ++ (tasksOf del).map Task.delete) :
    (f.Source, f.Destination) ∈ cp := by
  rcases List.mem_append.mp h with h1 | h1
  · obtain ⟨g, hg, hfg⟩ := List.mem_map.mp h1
    have : g = f := Task.copy.inj hfg
    subst this
    obtain ⟨e, he, heg⟩ := List.mem_map.mp hg
    rw [← heg]
    exact he
  · obtain ⟨g, _, hfg⟩ := List.mem_map.mp h1
    exact Task.noConfusion hfg

theorem mem_plan_delete (cp del : GoMap Str) (f : SyncFile)
    (h : Task.delete f ∈ (tasksOf cp).map Task.copy ++ (tasksOf del).map Task.delete) :
    f.Source ∈ del.keys := by
  rcases List.mem_append.mp h with h1 | h1
  · obtain ⟨g, _, hfg⟩ := List.mem_map.mp h1
    exact Task.noConfusion hfg
  · obtain ⟨g, hg, hfg⟩ := List.mem_map.mp h1
    have : g = f := Task.delete.inj hfg
    subst this
    obtain ⟨e, he, heg⟩ := List.mem_map.mp hg
    rw [← heg]
    exact List.mem_map.mpr ⟨e, he, rfl⟩

theorem plan_mem_copy (cp del : GoMap Str) (p v : Str) (h : (p, v) ∈ cp) :
    Task.copy { Source := p, Destination := v }
      ∈ (tasksOf cp).map Task.copy ++ (tasksOf del).map Task.delete :=
  List.mem_append_left _ (List.mem_map.mpr ⟨_, List.mem_map.mpr ⟨(p, v), h, rfl⟩, rfl⟩)

theorem plan_mem_delete (cp del : GoMap Str) (k : Str) (h : k ∈ del.keys) :
    ∃ f, f.Source = k
      ∧ Task.delete f ∈ (tasksOf cp).map Task.copy ++ (tasksOf del).map Task.delete := by
  obtain ⟨e, he, hk⟩ := List.mem_map.mp h
  exact ⟨{ Source := e.1, Destination := e.2 }, hk,
    List.mem_append_right _ (List.mem_map.mpr ⟨_, List.mem_map.mpr ⟨e, he, rfl⟩, rfl⟩)⟩

theorem plan_carried_out_matches (s d : Str) (S D : GoMap File) (hS : IsSnapshot s S)
    (hsize : ∀ p f fd, S.get? p = some f → D.get? (Replace p s d) = some fd → f.Size = fd.Size)
    (ts : List Task)
    (hts : ∀ t, t ∈ ts ↔ t ∈ (tasksOf (fileNameLoop s d S D).1).map Task.copy
      ++ (tasksOf (fileNameLoop s d S D).2).map Task.delete) :
    fileNameLoop s d S (ts.foldl (carryOut S) D) = ([], []) := by
  have hcpnd : (fileNameLoop s d S D).1.keys.Nodup :=
    foldl_fileNameStep_nodup s d S [] D List.nodup_nil
  have hunder := hS.2
  -- a copy task of the plan
  have hc1 : ∀ f, Task.copy f ∈ ts → ∃ fS, S.get? f.Source = some fS
      ∧ f.Destination = Replace f.Source s d ∧ D.get? (Replace f.Source s d) = none := by
    intro f hf
    have hm := mem_plan_copy _ _ f ((hts _).mp hf)
    have hg := GoMap.get?_of_mem _ _ _ hcpnd hm
    obtain ⟨fS, h1, h2, h3⟩ := (fileNameLoop_copy_get? s d S D hS _ _).mp hg
    refine ⟨fS, h1, h2, ?_⟩
    rcases h3 with h3 | ⟨fd, h3, h4⟩
    · exact h3
    · exact absurd (hsize _ fS fd h1 h3).symm h4
  -- a delete task of the plan
  have hd1 : ∀ f, Task.delete f ∈ ts → f.Source ∈ D.keys
      ∧ ∀ p ∈ S.keys, Replace p s d ≠ f.Source := by
    intro f hf
    have hm := mem_plan_delete _ _ f ((hts _).mp hf)
    rw [fileName_delete_set_keys s d S D hS] at hm
    refine ⟨hm.1, ?_⟩
    intro p hp hr
    obtain ⟨fS, hfS⟩ := GoMap.get?_of_mem_keys S p hp
    obtain ⟨fd, hfd⟩ := GoMap.get?_of_mem_keys D _ hm.1
    have hfd' : D.get? (Replace p s d) = some fd := by rw [hr]; exact hfd
    exact hm.2 ⟨p, fS, fd, hfS, hr, hfd, hsize p fS fd hfS hfd'⟩
  rw [fileNameLoop_eq_nil_iff s d S _ hS]
  constructor
  · intro p fS hp
    have hpk : p ∈ S.keys := GoMap.mem_keys_of_get? S p fS hp
    cases hD : D.get? (Replace p s d) with
    | none =>
      refine ⟨fS, ?_, rfl⟩
      have hplan : Task.copy { Source := p, Destination := Replace p s d } ∈ ts := by
        rw [hts]
        apply plan_mem_copy
        apply GoMap.mem_of_get?
        exact (fileNameLoop_copy_get? s d S D hS _ _).mpr ⟨fS, hp, rfl, Or.inl hD⟩
      apply foldl_carryOut_written S _ (some fS) ts D
      · intro t ht
        cases t with
        | copy f =>
          obtain ⟨fS', h1, h2, _⟩ := hc1 f ht
          by_cases hk : f.Destination = Replace p s d
          · right
            have hfp : f.Source = p :=
              Replace_injOn s d _ _ (hunder _ (GoMap.mem_keys_of_get? S _ fS' h1))
                (hunder p hpk) (h2.symm.trans hk)
            simp only [writeOf]
            rw [if_pos hk, hfp, hp]
          · left
            simp only [writeOf]
            rw [if_neg hk]
        | delete f =>
          left
          simp only [writeOf]
          have hne : f.Source ≠ Replace p s d := fun e => (hd1 f ht).2 p hpk e.symm
          rw [if_neg hne]
      · refine ⟨_, hplan, ?_⟩
        simp only [writeOf, if_true, hp]
    | some fd =>
      refine ⟨fd, ?_, (hsize p fS fd hp hD).symm⟩
      rw [← hD]
      apply foldl_carryOut_untouched
      intro t ht
      cases t with
      | copy f =>
        obtain ⟨fS', h1, h2, h3⟩ := hc1 f ht
        have hne : f.Destination ≠ Replace p s d := by
          intro e
          rw [← h2, e, hD] at h3
          exact Option.noConfusion h3
        simp only [writeOf]
        rw [if_neg hne]
      | delete f =>
        have hne : f.Source ≠ Replace p s d := fun e => (hd1 f ht).2 p hpk e.symm
        simp only [writeOf]
        rw [if_neg hne]
  · intro k hk
    by_contra hno
    push_neg at hno
    have hke : (ts.foldl (carryOut S) D).get? k = none := by
      have hcopies : ∀ f, Task.copy f ∈ ts → writeOf S k (.copy f) = none := by
        intro f hf
        obtain ⟨fS', h1, h2, _⟩ := hc1 f hf
        have hne : f.Destination ≠ k := by
          intro e
          exact hno f.Source (GoMap.mem_keys_of_get? S _ fS' h1) (h2.symm.trans e)
        simp only [writeOf]
        rw [if_neg hne]
      by_cases hkD : k ∈ D.keys
      · have hdel : k ∈ (fileNameLoop s d S D).2.keys := by
          rw [fileName_delete_set_keys s d S D hS]
          refine ⟨hkD, ?_⟩
          rintro ⟨p, f, _, h1, h2, _, _⟩
          exact hno p (GoMap.mem_keys_of_get? S p f h1) h2
        obtain ⟨g, hg, hgp⟩ := plan_mem_delete (fileNameLoop s d S D).1 _ k hdel
        apply foldl_carryOut_written S k none ts D
        · intro t ht
          cases t with
          | copy f => exact Or.inl (hcopies f ht)
          | delete f =>
            simp only [writeOf]
            by_cases he : f.Source = k
            · rw [if_pos he]
              exact Or.inr rfl
            · rw [if_neg he]
              exact Or.inl rfl
        · refine ⟨_, (hts _).mpr hgp, ?_⟩
          simp only [writeOf]
          rw [if_pos hg]
      · rw [foldl_carryOut_untouched S k ts D]
        · exact (GoMap.get?_eq_none_iff D k).mpr hkD
        · intro t ht
          cases t with
          | copy f => exact hcopies f ht
          | delete f =>
            have hne : f.Source ≠ k := fun e => hkD (e ▸ (hd1 f ht).1)
            simp only [writeOf]
            rw [if_neg hne]
    exact (GoMap.get?_eq_none_iff _ k).mp hke hk

/-- Idempotence of the plan where no destination file differs in size from its
source file: for a source snapshot `S` of the root `s`, once every task of the
copy set and of the delete set of `fileName` has been carried out, in any order,
reconciling `S` against the resulting destination yields an empty copy set and
an empty delete set. -/
theorem plan_idempotent_without_size_mismatch (s d : Str) (S D : GoMap File)
    (hS : IsSnapshot s S)
    (hsize : ∀ p f fd, S.get? p = some f → D.get? (Replace p s d) = some fd → f.Size = fd.Size)
    (ts : List Task)
    (hts : ∀ t, t ∈ ts ↔ t ∈ (tasksOf (fileNameLoop s d S D).1).map Task.copy
      ++ (tasksOf (fileNameLoop s d S D).2).map Task.delete) :
    fileNameLoop s d S (ts.foldl (carryOut S) D) = ([], []) :=
  plan_carried_out_matches s d S D hS hsize ts hts


/-- The theorem `plan_idempotent_without_size_mismatch` on `srcThree` and `dstTwo`,
the tasks of the plan being carried out in the reverse of their order in the plan. -/
theorem plan_idempotent_without_size_mismatch_witness :
    IsSnapshot "s".toList (scanDir srcThree "s".toList).1
    ∧ fileNameLoop "s".toList "d".toList (scanDir srcThree "s".toList).1
        (((tasksOf (fileNameLoop "s".toList "d".toList (scanDir srcThree "s".toList).1
              (scanDir dstTwo "d".toList).1).1).map Task.copy
          ++ (tasksOf (fileNameLoop "s".toList "d".toList (scanDir srcThree "s".toList).1
              (scanDir dstTwo "d".toList).1).2).map Task.delete).reverse.foldl
          (carryOut (scanDir srcThree "s".toList).1) (scanDir dstTwo "d".toList).1)
      = ([], []) := by
  refine ⟨scanDir_isSnapshot srcThree "s".toList, ?_⟩
  apply plan_idempotent_without_size_mismatch "s".toList "d".toList
    (scanDir srcThree "s".toList).1 (scanDir dstTwo "d".toList).1
    (scanDir_isSnapshot srcThree "s".toList)
  · intro p f fd hp hd
    have hk := GoMap.mem_keys_of_get? _ p f hp
    have hkeys : (scanDir srcThree "s".toList).1.keys
        = ["s/a".toList, "s/b".toList, "s/sub/c".toList] := by decide
    rw [hkeys] at hk
    rcases List.mem_cons.mp hk with h1 | hk
    · subst h1
      have h2 : (scanDir dstTwo "d".toList).1.get?
          (Replace "s/a".toList "s".toList "d".toList) = none := by decide
      rw [h2] at hd
      exact Option.noConfusion hd
    · rcases List.mem_cons.mp hk with h1 | hk
      · subst h1
        have h1 : (scanDir srcThree "s".toList).1.get? "s/b".toList
            = some { Path := "b".toList, Size := 0 } := by decide
        have h2 : (scanDir dstTwo "d".toList).1.get?
            (Replace "s/b".toList "s".toList "d".toList)
            = some { Path := "b".toList, Size := 0 } := by decide
        rw [h1] at hp
        rw [h2] at hd
        rw [← Option.some.inj hp, ← Option.some.inj hd]
      · have h1 := List.mem_singleton.mp hk
        subst h1
        have h2 : (scanDir dstTwo "d".toList).1.get?
            (Replace "s/sub/c".toList "s".toList "d".toList) = none := by decide
        rw [h2] at hd
        exact Option.noConfusion hd
  · intro t
    exact List.mem_reverse

end GoSync
